import Mathlib

/-!
Verification of the `N_puzzle_A_star.py` sliding-puzzle solver.

The Python source is shallowly embedded below.  Python strings are modelled
as lists of characters (`Str`); Python 2-D lists of ints as `List (List Nat)`;
the `queue.PriorityQueue` used by `Solver.solve` is modelled by the exact
CPython `heapq` algorithms (`heappush` / `heappop` with `siftdown` / `siftup`),
which is what `PriorityQueue.put` / `PriorityQueue.get` delegate to.  The
`while not q.empty()` loop is modelled with explicit fuel; `solveFuel` returns
`none` when the fuel runs out (an artifact that provably does not occur on
well-formed inputs), `some none` for the Python fall-off-the-end `return None`,
and `some (some path)` for a successful return.
-/

namespace NPuzzle

/-- Python strings are modelled as lists of characters. -/
abbrev Str := List Char

/-- The space character used by `' '.join`. -/
def spaceChar : Char := Char.ofNat 32

/-- The character for decimal digit `d` (`'0'` is code point 48). -/
def digitChar (d : Nat) : Char := Char.ofNat (48 + d)

/-- Structural helper for `natDigits`: the fuel is an upper bound on the
number, so the `0` arm is only ever reached at `n = 0`, where it agrees. -/
def natDigitsF : Nat → Nat → List Nat
  | 0, n => [n]
  | fuel + 1, n =>
    if n < 10 then [n] else natDigitsF fuel (n / 10) ++ [n % 10]

/-- Decimal digits of a natural number, most significant first,
mirroring Python `str(n)` for a nonnegative int. -/
def natDigits (n : Nat) : List Nat := natDigitsF n n

theorem natDigitsF_eq_of_le : ∀ f1 : Nat, ∀ f2 n : Nat, n ≤ f1 → n ≤ f2 →
    natDigitsF f1 n = natDigitsF f2 n := by
  intro f1
  induction f1 with
  | zero =>
    intro f2 n h1 _
    have : n = 0 := by omega
    subst this
    cases f2 with
    | zero => rfl
    | succ f => simp [natDigitsF]
  | succ f ih =>
    intro f2 n h1 h2
    cases f2 with
    | zero =>
      have : n = 0 := by omega
      subst this
      simp [natDigitsF]
    | succ f2 =>
      simp only [natDigitsF]
      by_cases h : n < 10
      · simp [h]
      · simp only [h, if_false]
        have hdiv : n / 10 < n := Nat.div_lt_self (show 0 < n by omega) (by omega)
        have hd : n / 10 ≤ f := by omega
        have hd2 : n / 10 ≤ f2 := by omega
        rw [ih f2 (n / 10) hd hd2]

/-- Python `str(n)` as a character list. -/
def natStr (n : Nat) : Str := (natDigits n).map digitChar

/-- Python `' '.join(strs)`. -/
def joinSp : List Str → Str
  | [] => []
  | [s] => s
  | s :: t :: rest => s ++ spaceChar :: joinSp (t :: rest)

/-- A tile grid: `Board.tiles` in the source, a 2-D list of ints. -/
abbrev Grid := List (List Nat)

/-- `t[i][j]` (total version: out-of-range reads return a default). -/
def tileAt (t : Grid) (i j : Nat) : Nat := (t.getD i []).getD j 0

/-- `t[i][j] = v`. -/
def setTile (t : Grid) (i j v : Nat) : Grid := t.set i ((t.getD i []).set j v)

/-- Python parallel assignment `tmp[i1][j1], tmp[i2][j2] = tmp[i2][j2], tmp[i1][j1]`:
both right-hand sides are read from the original grid. -/
def swapTiles (t : Grid) (i1 j1 i2 j2 : Nat) : Grid :=
  setTile (setTile t i1 j1 (tileAt t i2 j2)) i2 j2 (tileAt t i1 j1)

/-- The `Board` class: `tiles`, `parent`, `action`, and the depth `g`
computed by `__init__`. -/
inductive Board : Type where
  | mk (tiles : Grid) (parent : Option Board) (act : Option String) (g : Nat)

/-- Structural equality of boards (decidable equality for the nested type). -/
def beqBoard : Board → Board → Bool
  | .mk t1 none a1 g1, .mk t2 none a2 g2 =>
      t1 == t2 && a1 == a2 && g1 == g2
  | .mk t1 (some p) a1 g1, .mk t2 (some q) a2 g2 =>
      t1 == t2 && a1 == a2 && g1 == g2 && beqBoard p q
  | _, _ => false

theorem beqBoard_iff : ∀ a b : Board, beqBoard a b = true ↔ a = b
  | .mk t1 none a1 g1, .mk t2 none a2 g2 => by simp [beqBoard]; tauto
  | .mk t1 none a1 g1, .mk t2 (some q) a2 g2 => by simp [beqBoard]
  | .mk t1 (some p) a1 g1, .mk t2 none a2 g2 => by simp [beqBoard]
  | .mk t1 (some p) a1 g1, .mk t2 (some q) a2 g2 => by
      have ih := beqBoard_iff p q
      simp [beqBoard, ih]; tauto

instance : DecidableEq Board := fun a b => decidable_of_iff _ (beqBoard_iff a b)

/-- `self.tiles`. -/
def Board.tiles : Board → Grid
  | .mk t _ _ _ => t

/-- `self.parent`. -/
def Board.parent : Board → Option Board
  | .mk _ p _ _ => p

/-- `self.action`. -/
def Board.act : Board → Option String
  | .mk _ _ a _ => a

/-- `self.g`. -/
def Board.g : Board → Nat
  | .mk _ _ _ g => g

/-- `self.width = len(tiles)`. -/
def Board.width (b : Board) : Nat := b.tiles.length

/-- `Board.__init__(tiles, parent, action)`: `g = parent.g + 1` when a parent
is given, else `g = 0`. -/
def Board.init (tiles : Grid) (parent : Option Board) (a : Option String) : Board :=
  .mk tiles parent a (match parent with | some p => p.g + 1 | none => 0)

/-- A board used only as the default for total indexing. -/
def defaultBoard : Board := .mk [] none none 0

/-- The four conditional blank moves emitted for a blank found at `(i, j)`:
above (label `"Down"`), below (`"Up"`), left (`"Right"`), right (`"Left"`),
in this order, skipping out-of-bounds directions — lines 51–66 of the source. -/
def cellMoves (t : Grid) (w i j : Nat) : List (Grid × String) :=
  (if 1 ≤ i then [(swapTiles t (i-1) j i j, "Down")] else []) ++
  (if i+1 < w then [(swapTiles t (i+1) j i j, "Up")] else []) ++
  (if 1 ≤ j then [(swapTiles t i (j-1) i j, "Right")] else []) ++
  (if j+1 < w then [(swapTiles t i (j+1) i j, "Left")] else [])

/-- `Board.neighbors(record_parent)`: scan every cell of the grid, and for each
cell holding `0` emit the (up to four) swapped boards; with `record_parent`
the children carry `parent = self` and the action label, otherwise neither. -/
def Board.neighbors (b : Board) (record : Bool) : List Board :=
  (List.range b.width).flatMap (fun i =>
    (List.range b.width).flatMap (fun j =>
      if tileAt b.tiles i j = 0 then
        (cellMoves b.tiles b.width i j).map (fun m =>
          if record then Board.init m.1 (some b) (some m.2)
          else Board.init m.1 none none)
      else []))

/-- `Board.manhattan`: sum over all cells of the distance of each non-blank
tile from its goal position `divmod(v - 1, width)`. -/
def Board.manhattan (b : Board) : Int :=
  ((List.range b.width).map (fun i =>
    ((List.range b.width).map (fun j =>
      let v := tileAt b.tiles i j
      if v ≠ 0 then
        |((v - 1) / b.width : Int) - (i : Int)| + |((v - 1) % b.width : Int) - (j : Int)|
      else 0)).sum)).sum

/-- The `f` property: `g + h` where `h` is the Manhattan distance. -/
def Board.f (b : Board) : Int := (b.g : Int) + b.manhattan

/-- `Board.__lt__`: compares the `f` values. -/
def Board.ltb (b o : Board) : Bool := b.f < o.f

/-- `Board.__eq__`: compares the `f` values. -/
def Board.beqf (b o : Board) : Bool := b.f == o.f

/-- The parent chain of a board, current board first (the loop body of
`Board.path` before the reversal). -/
def Board.pathRev : Board → List Board
  | .mk t none a g => [.mk t none a g]
  | .mk t (some p) a g => .mk t (some p) a g :: p.pathRev

/-- `Board.path`: follow `parent` links, then reverse, so the root comes first. -/
def Board.path (b : Board) : List Board := b.pathRev.reverse

/-- The flattened tile sequence, which is what `Board.__iter__` yields. -/
def Board.flat (b : Board) : List Nat := b.tiles.flatten

/-- `' '.join(map(str, flatSeq))` — the canonical key of a flattened grid,
which is what `Board.__repr__` produces. -/
def listKey (l : List Nat) : Str := joinSp (l.map natStr)

/-- `Board.__repr__`: the canonical key of the board. -/
def Board.repr (b : Board) : Str := listKey b.flat

/-- The right-hand side of the comparison in `Board.is_solved`:
`' '.join(map(str, range(1, N))) + ' 0'` with `N = width ** 2`. -/
def solvedStr (w : Nat) : Str :=
  joinSp ((List.range' 1 (w * w - 1)).map natStr) ++ spaceChar :: [digitChar 0]

/-- `Board.is_solved`: the canonical key equals the solved layout's key. -/
def Board.is_solved (b : Board) : Bool := b.repr == solvedStr b.width

/-- CPython `heapq._siftdown(heap, startpos, pos)` with `newitem = heap[pos]`
passed explicitly: bubble `newitem` up towards the root.  The structural fuel
is an upper bound on `pos`, which strictly decreases; when called with
`fuel = pos` (as `siftdownLoop` does) the `0` arm is only reached at
`pos = 0`, where the loop guard fails and it agrees with the loop exit. -/
def siftdownLoopF : Nat → List Board → Nat → Nat → Board → List Board
  | 0, heap, _, pos, newitem => heap.set pos newitem
  | fuel + 1, heap, startpos, pos, newitem =>
    if startpos < pos then
      let parentpos := (pos - 1) / 2
      let parent := heap.getD parentpos defaultBoard
      if Board.ltb newitem parent then
        siftdownLoopF fuel (heap.set pos parent) startpos parentpos newitem
      else heap.set pos newitem
    else heap.set pos newitem

/-- The `while` loop of CPython `heapq._siftdown`. -/
def siftdownLoop (heap : List Board) (startpos pos : Nat) (newitem : Board) :
    List Board :=
  siftdownLoopF pos heap startpos pos newitem

/-- CPython `heapq._siftdown(heap, startpos, pos)`. -/
def siftdown (heap : List Board) (startpos pos : Nat) : List Board :=
  siftdownLoop heap startpos pos (heap.getD pos defaultBoard)

/-- CPython `heapq.heappush(heap, item)`: append, then sift down from the end. -/
def heappush (heap : List Board) (item : Board) : List Board :=
  siftdown (heap ++ [item]) 0 heap.length

/-- CPython `heapq._siftup(heap, pos)` with `newitem = heap[pos]` passed
explicitly: walk the smaller-child path to a leaf, then sift down.  The
structural fuel bounds `heap.length - pos`, which strictly decreases; when
called with `fuel = heap.length` (as `siftupLoop` does) the `0` arm is only
reached when the loop guard `2*pos + 1 < len(heap)` fails, where it agrees
with the loop exit. -/
def siftupLoopF : Nat → List Board → Nat → Board → Nat → List Board
  | 0, heap, pos, newitem, startpos =>
    siftdownLoop (heap.set pos newitem) startpos pos newitem
  | fuel + 1, heap, pos, newitem, startpos =>
    let endpos := heap.length
    let childpos := 2 * pos + 1
    if childpos < endpos then
      let rightpos := childpos + 1
      let childpos2 :=
        if rightpos < endpos ∧
            ¬ Board.ltb (heap.getD childpos defaultBoard) (heap.getD rightpos defaultBoard)
          then rightpos else childpos
      siftupLoopF fuel (heap.set pos (heap.getD childpos2 defaultBoard)) childpos2
        newitem startpos
    else siftdownLoop (heap.set pos newitem) startpos pos newitem

/-- The `while` loop of CPython `heapq._siftup`. -/
def siftupLoop (heap : List Board) (pos : Nat) (newitem : Board) (startpos : Nat) :
    List Board :=
  siftupLoopF heap.length heap pos newitem startpos

/-- CPython `heapq.heappop(heap)`: `None` on an empty heap (the Python code
never pops an empty queue, guarded by `q.empty()`), otherwise the minimum
together with the remaining heap. -/
def heappop (heap : List Board) : Option (Board × List Board) :=
  if heap.isEmpty then none
  else
    let lastelt := heap.getLastD defaultBoard
    let rest := heap.dropLast
    if rest.isEmpty then some (lastelt, [])
    else some (rest.getD 0 defaultBoard, siftupLoop (rest.set 0 lastelt) 0 lastelt 0)

/-- The body of the successor loop in `Solver.solve`:
`if nb.__repr__() not in seen: q.put(nb); seen.add(nb.__repr__())`. -/
def pushChild (hs : List Board × List Str) (nb : Board) : List Board × List Str :=
  if nb.repr ∈ hs.2 then hs else (heappush hs.1 nb, nb.repr :: hs.2)

/-- The `while not q.empty()` loop of `Solver.solve`, with explicit fuel.
`none` means the fuel ran out (never happens on well-formed inputs);
`some none` is the Python implicit `return None` after frontier exhaustion;
`some (some p)` is `return node.path()`. -/
def solveFuel : Nat → List Board → List Str → Option (Option (List Board))
  | 0, _, _ => none
  | fuel + 1, heap, seen =>
    match heappop heap with
    | none => some none
    | some (node, heap1) =>
      if node.is_solved then some (some node.path)
      else
        let hs := (node.neighbors true).foldl pushChild (heap1, seen)
        solveFuel fuel hs.1 hs.2

/-- Fuel that provably suffices for the loop on well-formed boards: at most
`(width²)!` distinct canonical keys can ever be marked seen, and the measure
`(#unmarked keys) + (heap size)` strictly decreases at every iteration. -/
def solveBound (b : Board) : Nat := Nat.factorial (b.width * b.width) + 1

/-- `Solver.solve`: push the puzzle, mark its key seen, and run the loop. -/
def Solver.solve (puzzle : Board) : Option (Option (List Board)) :=
  solveFuel (solveBound puzzle) (heappush [] puzzle) [puzzle.repr]

/-- `make_goal(s)`: rows of `[1, ..., s*s - 1, 0]` taken `s` at a time. -/
def make_goal (s : Nat) : Grid :=
  let arr := List.range' 1 (s * s - 1) ++ [0]
  (List.range s).map (fun i => (List.range s).map (fun j => arr.getD (i * s + j) 0))

/-! ### Derived notions used to state the claims -/

/-- A square grid of side `w`. -/
def Square (w : Nat) (t : Grid) : Prop := t.length = w ∧ ∀ r ∈ t, r.length = w

instance (w : Nat) (t : Grid) : Decidable (Square w t) := by
  unfold Square; infer_instance

/-- A well-formed `w × w` grid: square of side `w` whose flattened tile
sequence is a permutation of `0 .. w² − 1`. -/
def WFGrid (w : Nat) (t : Grid) : Prop :=
  Square w t ∧ t.flatten.Perm (List.range (w * w))

instance (w : Nat) (t : Grid) : Decidable (WFGrid w t) := by
  unfold WFGrid; infer_instance

/-- The grids of the successors of a grid (the tile component of
`Board.neighbors`, which depends only on the tiles). -/
def gridNeighbors (t : Grid) : List Grid :=
  (List.range t.length).flatMap (fun i =>
    (List.range t.length).flatMap (fun j =>
      if tileAt t i j = 0 then (cellMoves t t.length i j).map Prod.fst
      else []))

/-- One successor-generation step at the grid level. -/
def GridStep (t u : Grid) : Prop := u ∈ gridNeighbors t

/-- Reachability through successor generation. -/
def Reaches (t u : Grid) : Prop := Relation.ReflTransGen GridStep t u

/-- The root of a board's parent chain. -/
def rootOf : Board → Board
  | .mk t none a g => .mk t none a g
  | .mk t (some p) _ _ => rootOf p

/-- The depth bookkeeping `__init__` maintains: `g = 0` at a root and
`g = parent.g + 1` below it, along the whole parent chain. -/
def wellDepth : Board → Bool
  | .mk _ none _ g => g == 0
  | .mk _ (some p) _ g => g == p.g + 1 && wellDepth p

/-! ### Decimal rendering: basic facts and injectivity of the canonical key -/

theorem natDigits_def (n : Nat) :
    natDigits n = if n < 10 then [n] else natDigits (n / 10) ++ [n % 10] := by
  unfold natDigits
  by_cases h : n < 10
  · cases n with
    | zero => simp [natDigitsF, h]
    | succ m => simp [natDigitsF, h]
  · cases n with
    | zero => omega
    | succ m =>
      simp only [natDigitsF, h, if_false]
      have hd : (m + 1) / 10 ≤ m := by
        have : (m + 1) / 10 < m + 1 := Nat.div_lt_self (by omega) (by omega)
        omega
      rw [natDigitsF_eq_of_le m ((m + 1) / 10) ((m + 1) / 10) hd (Nat.le_refl _)]

theorem natDigits_ne_nil (n : Nat) : natDigits n ≠ [] := by
  rw [natDigits_def]; split <;> simp

theorem natDigits_lt (n : Nat) : ∀ d ∈ natDigits n, d < 10 := by
  induction n using Nat.strong_induction_on with
  | _ n ih =>
    rw [natDigits_def n]
    by_cases h : n < 10
    · simp [h]
    · simp only [h, if_false]
      intro d hd
      rcases List.mem_append.mp hd with h1 | h1
      · exact ih (n / 10) (Nat.div_lt_self (by omega) (by omega)) d h1
      · simp at h1; omega

theorem natDigits_inj : ∀ m n : Nat, natDigits m = natDigits n → m = n := by
  intro m
  induction m using Nat.strong_induction_on with
  | _ m ih =>
    intro n he
    rw [natDigits_def m, natDigits_def n] at he
    by_cases hm : m < 10 <;> by_cases hn : n < 10
    · rw [if_pos hm, if_pos hn] at he; simpa using he
    · rw [if_pos hm, if_neg hn] at he
      have hlen := congrArg List.length he
      rw [List.length_append] at hlen
      simp only [List.length_cons, List.length_nil] at hlen
      exact absurd (List.eq_nil_of_length_eq_zero (by omega))
        (natDigits_ne_nil (n / 10))
    · rw [if_neg hm, if_pos hn] at he
      have hlen := congrArg List.length he
      rw [List.length_append] at hlen
      simp only [List.length_cons, List.length_nil] at hlen
      exact absurd (List.eq_nil_of_length_eq_zero (by omega))
        (natDigits_ne_nil (m / 10))
    · rw [if_neg hm, if_neg hn] at he
      have hrev := congrArg List.reverse he
      simp at hrev
      have h2 : natDigits (m / 10) = natDigits (n / 10) := hrev.2
      have h3 : m / 10 = n / 10 :=
        ih (m / 10) (Nat.div_lt_self (by omega) (by omega)) (n / 10) h2
      have h1 : m % 10 = n % 10 := hrev.1
      omega

theorem toNat_digitChar (d : Nat) (h : d < 10) : (digitChar d).toNat = 48 + d := by
  interval_cases d <;> rfl

theorem digitChar_ne_space (d : Nat) (h : d < 10) : digitChar d ≠ spaceChar := by
  intro he
  have h1 := toNat_digitChar d h
  have h2 : (spaceChar : Char).toNat = 32 := rfl
  rw [he, h2] at h1
  omega

theorem natStr_ne_nil (n : Nat) : natStr n ≠ [] := by
  unfold natStr
  intro h
  exact natDigits_ne_nil n (by simpa using h)

theorem space_not_mem_natStr (n : Nat) : spaceChar ∉ natStr n := by
  unfold natStr
  intro h
  rcases List.mem_map.mp h with ⟨d, hd, he⟩
  exact digitChar_ne_space d (natDigits_lt n d hd) he

theorem map_digitChar_inj : ∀ l1 l2 : List Nat, (∀ d ∈ l1, d < 10) →
    (∀ d ∈ l2, d < 10) → l1.map digitChar = l2.map digitChar → l1 = l2
  | [], [], _, _, _ => rfl
  | [], b :: t, _, _, he => by simp at he
  | a :: s, [], _, _, he => by simp at he
  | a :: s, b :: t, h1, h2, he => by
      simp at he
      have ha := h1 a (by simp)
      have hb := h2 b (by simp)
      have hab : a = b := by
        have := congrArg Char.toNat he.1
        rw [toNat_digitChar a ha, toNat_digitChar b hb] at this
        omega
      have := map_digitChar_inj s t (fun d hd => h1 d (by simp [hd]))
        (fun d hd => h2 d (by simp [hd])) he.2
      simp [hab, this]

theorem natStr_inj (m n : Nat) (h : natStr m = natStr n) : m = n :=
  natDigits_inj m n (map_digitChar_inj _ _ (natDigits_lt m) (natDigits_lt n) h)

theorem append_space_inj : ∀ s1 s2 r1 r2 : Str, spaceChar ∉ s1 → spaceChar ∉ s2 →
    s1 ++ spaceChar :: r1 = s2 ++ spaceChar :: r2 → s1 = s2 ∧ r1 = r2
  | [], [], r1, r2, _, _, he => by simp at he; exact ⟨rfl, he⟩
  | [], c :: s2, r1, r2, h1, h2, he => by
      simp at he
      exact (h2 (by rw [he.1]; exact List.mem_cons_self c s2)).elim
  | c :: s1, [], r1, r2, h1, h2, he => by
      simp at he
      exact (h1 (by rw [← he.1]; exact List.mem_cons_self c s1)).elim
  | c :: s1, d :: s2, r1, r2, h1, h2, he => by
      simp at he
      have hcd : c = d := he.1
      have := append_space_inj s1 s2 r1 r2 (fun hm => h1 (by simp [hm]))
        (fun hm => h2 (by simp [hm])) he.2
      simp [hcd, this.1, this.2]

/-- Strings built from nonempty space-free pieces determine the pieces. -/
theorem joinSp_inj : ∀ l1 l2 : List Str,
    (∀ s ∈ l1, s ≠ [] ∧ spaceChar ∉ s) → (∀ s ∈ l2, s ≠ [] ∧ spaceChar ∉ s) →
    joinSp l1 = joinSp l2 → l1 = l2
  | [], [], _, _, _ => rfl
  | [], [s], _, h2, he => by
      simp [joinSp] at he
      exact absurd he (h2 s (by simp)).1
  | [], s :: t :: r, _, _, he => by
      simp [joinSp] at he
  | [s], [], h1, _, he => by
      simp [joinSp] at he
      exact absurd he (h1 s (by simp)).1
  | [s], [t], _, _, he => by simp [joinSp] at he; simp [he]
  | [s], t :: u :: r, h1, _, he => by
      simp [joinSp] at he
      have : spaceChar ∈ s := by rw [he]; simp
      exact absurd this (h1 s (by simp)).2
  | s :: t :: r, [], _, h2, he => by
      simp [joinSp] at he
  | s :: t :: r, [u], _, h2, he => by
      simp [joinSp] at he
      have : spaceChar ∈ u := by rw [← he]; simp
      exact absurd this (h2 u (by simp)).2
  | s :: t :: r, u :: v :: q, h1, h2, he => by
      simp only [joinSp] at he
      have hsp := append_space_inj s u (joinSp (t :: r)) (joinSp (v :: q))
        (h1 s (by simp)).2 (h2 u (by simp)).2 he
      have := joinSp_inj (t :: r) (v :: q)
        (fun x hx => h1 x (by simp [List.mem_cons] at hx ⊢; tauto))
        (fun x hx => h2 x (by simp [List.mem_cons] at hx ⊢; tauto)) hsp.2
      simp [hsp.1, this]

/-- The canonical key is injective on flattened tile sequences. -/
theorem listKey_inj (l1 l2 : List Nat) (h : listKey l1 = listKey l2) : l1 = l2 := by
  have hm := joinSp_inj (l1.map natStr) (l2.map natStr)
    (by intro s hs; rcases List.mem_map.mp hs with ⟨n, _, he⟩
        exact he ▸ ⟨natStr_ne_nil n, space_not_mem_natStr n⟩)
    (by intro s hs; rcases List.mem_map.mp hs with ⟨n, _, he⟩
        exact he ▸ ⟨natStr_ne_nil n, space_not_mem_natStr n⟩) h
  clear h
  induction l1 generalizing l2 with
  | nil => cases l2 with
    | nil => rfl
    | cons b t => simp at hm
  | cons a l1t ih =>
    cases l2 with
    | nil => simp at hm
    | cons b t =>
      simp at hm
      exact by simp [natStr_inj a b hm.1, ih t hm.2]

/-! ### Swap-as-permutation lemmas for plain lists -/

theorem get_cons_set_perm {α : Type} (x : α) :
    ∀ (t : List α) (k : Nat) (hk : k < t.length),
      List.Perm (t.get ⟨k, hk⟩ :: t.set k x) (x :: t)
  | y :: s, 0, _ => by simpa using List.Perm.swap x y s
  | y :: s, k + 1, hk => by
    have ih := get_cons_set_perm x s k (by simpa using hk)
    simp only [List.get_cons_succ, List.set_cons_succ]
    exact (List.Perm.swap y _ _).trans ((ih.cons y).trans (List.Perm.swap x y s))

theorem set_set_swap_perm_lt {α : Type} :
    ∀ (l : List α) (a b : Nat), a < b → ∀ (hb : b < l.length) (ha : a < l.length),
      List.Perm ((l.set a (l.get ⟨b, hb⟩)).set b (l.get ⟨a, ha⟩)) l
  | y :: s, 0, b + 1, _, hb, _ => by
    have := get_cons_set_perm y s b (by simpa using hb)
    simpa using this
  | y :: s, a + 1, b + 1, hab, hb, ha => by
    have ih := set_set_swap_perm_lt s a b (by omega) (by simpa using hb)
      (by simpa using ha)
    simpa using ih.cons y

theorem set_set_swap_perm {α : Type} (l : List α) (a b : Nat) (hne : a ≠ b)
    (ha : a < l.length) (hb : b < l.length) :
    List.Perm ((l.set a (l.get ⟨b, hb⟩)).set b (l.get ⟨a, ha⟩)) l := by
  rcases Nat.lt_or_ge a b with h | h
  · exact set_set_swap_perm_lt l a b h hb ha
  · have hba : b < a := by omega
    rw [List.set_comm _ _ _ (by omega)]
    exact set_set_swap_perm_lt l b a hba ha hb

/-! ### Grid lemmas: flatten, tile access, swaps -/

theorem flatten_length (w : Nat) (t : Grid) (ht : ∀ r ∈ t, r.length = w) :
    t.flatten.length = t.length * w := by
  induction t with
  | nil => simp
  | cons r rs ih =>
    simp only [List.flatten_cons, List.length_append, List.length_cons]
    rw [ht r (by simp), ih (fun r hr => ht r (by simp [hr]))]
    ring

theorem tileAt_flatten (w : Nat) : ∀ (t : Grid), (∀ r ∈ t, r.length = w) →
    ∀ i j, i < t.length → j < w → tileAt t i j = t.flatten.getD (i * w + j) 0
  | [], _, i, j, hi, _ => by simp at hi
  | r :: rs, ht, 0, j, hi, hj => by
    have hr : r.length = w := ht r (by simp)
    simp only [tileAt, List.flatten_cons, Nat.zero_mul, Nat.zero_add,
      List.getD_cons_zero]
    rw [List.getD_append _ _ _ _ (by omega)]
  | r :: rs, ht, i + 1, j, hi, hj => by
    have hr : r.length = w := ht r (by simp)
    have ih := tileAt_flatten w rs (fun r hr => ht r (by simp [hr])) i j
      (by simpa using hi) hj
    simp only [List.flatten_cons]
    rw [List.getD_append_right _ _ _ _ (by rw [hr]; ring_nf; omega)]
    have hidx : (i + 1) * w + j - r.length = i * w + j := by rw [hr]; ring_nf; omega
    rw [hidx]
    simpa [tileAt] using ih

theorem setTile_flatten (w : Nat) : ∀ (t : Grid), (∀ r ∈ t, r.length = w) →
    ∀ i j v, i < t.length → j < w →
      (setTile t i j v).flatten = t.flatten.set (i * w + j) v
  | [], _, i, j, v, hi, _ => by simp at hi
  | r :: rs, ht, 0, j, v, hi, hj => by
    have hr : r.length = w := ht r (by simp)
    simp only [setTile, List.getD_cons_zero, List.set_cons_zero, List.flatten_cons,
      List.set_append, Nat.zero_mul, Nat.zero_add]
    rw [if_pos (by omega)]
  | r :: rs, ht, i + 1, j, v, hi, hj => by
    have hr : r.length = w := ht r (by simp)
    have ih := setTile_flatten w rs (fun r hr => ht r (by simp [hr])) i j v
      (by simpa using hi) hj
    simp only [setTile, List.flatten_cons, List.set_append] at ih ⊢
    rw [if_neg (by rw [hr]; ring_nf; omega)]
    have hidx : (i + 1) * w + j - r.length = i * w + j := by rw [hr]; ring_nf; omega
    rw [hidx]
    simp only [List.set_cons_succ, List.flatten_cons]
    congr 1

theorem setTile_length (t : Grid) (i j v : Nat) : (setTile t i j v).length = t.length := by
  simp [setTile]

theorem setTile_square (w : Nat) (t : Grid) (h : Square w t) (i j v : Nat)
    (hi : i < t.length) : Square w (setTile t i j v) := by
  constructor
  · rw [setTile_length]; exact h.1
  · intro r hr
    rcases List.mem_or_eq_of_mem_set hr with h1 | h1
    · exact h.2 r h1
    · subst h1
      rw [List.length_set]
      exact h.2 _ (by rw [List.getD_eq_getElem _ _ hi]; exact List.getElem_mem hi)

theorem swapTiles_square (w : Nat) (t : Grid) (h : Square w t) (i1 j1 i2 j2 : Nat)
    (hi1 : i1 < w) (hi2 : i2 < w) : Square w (swapTiles t i1 j1 i2 j2) := by
  unfold swapTiles
  exact setTile_square w _ (setTile_square w t h i1 j1 _ (by rw [h.1]; omega)) i2 j2 _
    (by rw [setTile_length, h.1]; omega)

theorem cell_lt (w i j : Nat) (hi : i < w) (hj : j < w) : i * w + j < w * w := by
  have h : (i + 1) * w ≤ w * w := Nat.mul_le_mul_right w hi
  have h2 : (i + 1) * w = i * w + w := by ring
  omega

theorem cellIndex_inj (w i1 j1 i2 j2 : Nat) (hj1 : j1 < w) (hj2 : j2 < w)
    (h : i1 * w + j1 = i2 * w + j2) : i1 = i2 ∧ j1 = j2 := by
  have hw : 0 < w := by omega
  have e1 : (w * i1 + j1) / w = i1 := by
    rw [Nat.mul_add_div hw, Nat.div_eq_of_lt hj1]; omega
  have e2 : (w * i2 + j2) / w = i2 := by
    rw [Nat.mul_add_div hw, Nat.div_eq_of_lt hj2]; omega
  have h' : w * i1 + j1 = w * i2 + j2 := by
    rw [Nat.mul_comm w i1, Nat.mul_comm w i2]; exact h
  have hi : i1 = i2 := by rw [← e1, ← e2, h']
  subst hi
  constructor
  · rfl
  · omega

theorem swapTiles_flatten (w : Nat) (t : Grid) (hsq : Square w t) (i1 j1 i2 j2 : Nat)
    (hi1 : i1 < w) (hj1 : j1 < w) (hi2 : i2 < w) (hj2 : j2 < w) :
    (swapTiles t i1 j1 i2 j2).flatten =
      (t.flatten.set (i1 * w + j1) (t.flatten.getD (i2 * w + j2) 0)).set (i2 * w + j2)
        (t.flatten.getD (i1 * w + j1) 0) := by
  unfold swapTiles
  have hlen : t.length = w := hsq.1
  have hsq1 := setTile_square w t hsq i1 j1 (tileAt t i2 j2) (by omega)
  rw [setTile_flatten w _ hsq1.2 i2 j2 _ (by rw [setTile_length]; omega) hj2]
  rw [setTile_flatten w t hsq.2 i1 j1 _ (by omega) hj1]
  rw [tileAt_flatten w t hsq.2 i2 j2 (by omega) hj2,
    tileAt_flatten w t hsq.2 i1 j1 (by omega) hj1]

theorem swapTiles_flatten_perm (w : Nat) (t : Grid) (hsq : Square w t)
    (i1 j1 i2 j2 : Nat) (hi1 : i1 < w) (hj1 : j1 < w) (hi2 : i2 < w) (hj2 : j2 < w)
    (hne : ¬(i1 = i2 ∧ j1 = j2)) :
    List.Perm (swapTiles t i1 j1 i2 j2).flatten t.flatten := by
  rw [swapTiles_flatten w t hsq i1 j1 i2 j2 hi1 hj1 hi2 hj2]
  have hflen : t.flatten.length = w * w := by
    rw [flatten_length w t hsq.2, hsq.1]
  have hp1 : i1 * w + j1 < t.flatten.length := by rw [hflen]; exact cell_lt w i1 j1 hi1 hj1
  have hp2 : i2 * w + j2 < t.flatten.length := by rw [hflen]; exact cell_lt w i2 j2 hi2 hj2
  rw [List.getD_eq_getElem _ _ hp2, List.getD_eq_getElem _ _ hp1]
  have hidx : i1 * w + j1 ≠ i2 * w + j2 := fun h =>
    hne (cellIndex_inj w i1 j1 i2 j2 hj1 hj2 h)
  have := set_set_swap_perm t.flatten (i1 * w + j1) (i2 * w + j2) hidx hp1 hp2
  simpa using this

theorem square_flatten_inj (w : Nat) : ∀ t1 t2 : Grid, t1.length = t2.length →
    (∀ r ∈ t1, r.length = w) → (∀ r ∈ t2, r.length = w) →
    t1.flatten = t2.flatten → t1 = t2
  | [], [], _, _, _, _ => rfl
  | [], r :: rs, hl, _, _, _ => by simp at hl
  | r :: rs, [], hl, _, _, _ => by simp at hl
  | r1 :: rs1, r2 :: rs2, hl, h1, h2, hf => by
    simp only [List.flatten_cons] at hf
    have hro := List.append_inj hf (by rw [h1 r1 (by simp), h2 r2 (by simp)])
    have ht := square_flatten_inj w rs1 rs2 (by simpa using hl)
      (fun r hr => h1 r (by simp [hr])) (fun r hr => h2 r (by simp [hr])) hro.2
    simp [hro.1, ht]

/-! ### Board constructor helpers -/

@[simp] theorem tiles_init (t : Grid) (p : Option Board) (a : Option String) :
    (Board.init t p a).tiles = t := by cases p <;> rfl

@[simp] theorem parent_init (t : Grid) (p : Option Board) (a : Option String) :
    (Board.init t p a).parent = p := by cases p <;> rfl

@[simp] theorem act_init (t : Grid) (p : Option Board) (a : Option String) :
    (Board.init t p a).act = a := by cases p <;> rfl

theorem g_init_some (t : Grid) (q : Board) (a : Option String) :
    (Board.init t (some q) a).g = q.g + 1 := rfl

theorem g_init_none (t : Grid) (a : Option String) :
    (Board.init t none a).g = 0 := rfl

/-! ### `make_goal` and the solved key -/

theorem make_goal_square (s : Nat) : Square s (make_goal s) := by
  constructor
  · simp [make_goal]
  · intro r hr
    simp only [make_goal, List.mem_map] at hr
    rcases hr with ⟨i, _, he⟩
    simp [← he]

theorem getD_drop {α : Type} (l : List α) (m n : Nat) (d : α) :
    (l.drop m).getD n d = l.getD (m + n) d := by
  simp [List.getD_eq_getElem?_getD, List.getElem?_drop]

theorem map_getD_range {α : Type} (d : α) : ∀ (k : Nat) (l : List α), k ≤ l.length →
    (List.range k).map (fun j => l.getD j d) = l.take k := by
  intro k
  induction k with
  | zero => simp
  | succ n ih =>
    intro l hl
    rw [List.range_succ, List.map_append, ih l (by omega)]
    simp only [List.map_cons, List.map_nil]
    rw [List.getD_eq_getElem l d (by omega)]
    rw [List.take_succ]
    congr 1
    rw [List.getElem?_eq_getElem (by omega)]
    rfl

theorem flatten_chunks {α : Type} (d : α) (s : Nat) : ∀ (k : Nat) (arr : List α),
    arr.length = k * s →
    ((List.range k).map (fun i =>
      (List.range s).map (fun j => arr.getD (i * s + j) d))).flatten = arr := by
  intro k
  induction k with
  | zero =>
    intro arr h
    simp only [Nat.zero_mul, List.length_eq_zero] at h
    simp [h]
  | succ n ih =>
    intro arr h
    rw [List.range_succ_eq_map]
    simp only [List.map_cons, List.map_map, List.flatten_cons, Nat.zero_mul,
      Nat.zero_add]
    have hfirst : (List.range s).map (fun j => arr.getD j d) = arr.take s := by
      apply map_getD_range
      rw [h]; ring_nf; nlinarith [Nat.le_add_left s (n * s)]
    have hrest : ((List.range n).map ((fun i =>
        (List.range s).map (fun j => arr.getD (i * s + j) d)) ∘ Nat.succ)).flatten
        = arr.drop s := by
      have hcong : (List.range n).map ((fun i =>
          (List.range s).map (fun j => arr.getD (i * s + j) d)) ∘ Nat.succ) =
          (List.range n).map (fun i =>
          (List.range s).map (fun j => (arr.drop s).getD (i * s + j) d)) := by
        apply List.map_congr_left
        intro i _
        simp only [Function.comp]
        apply List.map_congr_left
        intro j _
        rw [getD_drop]
        congr 1
        simp only [Nat.succ_eq_add_one]
        ring
      rw [hcong]
      apply ih
      rw [List.length_drop, h]
      ring_nf
      omega
    rw [hfirst, hrest, List.take_append_drop]

theorem flatten_make_goal (s : Nat) (hs : 1 ≤ s) :
    (make_goal s).flatten = List.range' 1 (s * s - 1) ++ [0] := by
  unfold make_goal
  apply flatten_chunks 0 s s
  rw [List.length_append, List.length_range', List.length_cons, List.length_nil]
  have : 1 ≤ s * s := Nat.mul_pos hs hs
  omega

theorem goalFlat_perm (n : Nat) (hn : 1 ≤ n) :
    List.Perm (List.range' 1 (n - 1) ++ [0]) (List.range n) := by
  have hr : List.range n = 0 :: List.range' 1 (n - 1) := by
    rw [List.range_eq_range']
    cases n with
    | zero => omega
    | succ m => rw [List.range'_succ]; simp
  rw [hr]
  exact List.perm_append_singleton 0 _

theorem make_goal_WF (w : Nat) (hw : 1 ≤ w) : WFGrid w (make_goal w) := by
  refine ⟨make_goal_square w, ?_⟩
  rw [flatten_make_goal w hw]
  exact goalFlat_perm (w * w) (Nat.mul_pos hw hw)

theorem joinSp_append_singleton : ∀ l : List Str, l ≠ [] → ∀ y : Str,
    joinSp (l ++ [y]) = joinSp l ++ spaceChar :: y
  | [], h, _ => absurd rfl h
  | [s], _, y => by simp [joinSp]
  | s :: t :: r, _, y => by
    have ih := joinSp_append_singleton (t :: r) (by simp) y
    show s ++ spaceChar :: joinSp ((t :: r) ++ [y]) =
      (s ++ spaceChar :: joinSp (t :: r)) ++ spaceChar :: y
    rw [ih]
    simp

theorem natStr_zero : natStr 0 = [digitChar 0] := rfl

theorem solvedStr_eq_listKey (w : Nat) (hw : 2 ≤ w) :
    solvedStr w = listKey (List.range' 1 (w * w - 1) ++ [0]) := by
  have hne : (List.range' 1 (w * w - 1)).map natStr ≠ [] := by
    have h4 : 2 * 2 ≤ w * w := Nat.mul_le_mul hw hw
    simp only [ne_eq, List.map_eq_nil_iff]
    intro h
    have := congrArg List.length h
    simp at this
    omega
  unfold solvedStr listKey
  rw [List.map_append, List.map_cons, List.map_nil,
    joinSp_append_singleton _ hne (natStr 0), natStr_zero]

/-- On square boards, `is_solved` holds exactly when the grid is the goal grid. -/
theorem is_solved_iff_eq_goal (w : Nat) (hw : 2 ≤ w) (b : Board)
    (hsq : Square w b.tiles) : b.is_solved = true ↔ b.tiles = make_goal w := by
  unfold Board.is_solved
  have hwidth : b.width = w := hsq.1
  rw [hwidth, solvedStr_eq_listKey w hw, beq_iff_eq]
  constructor
  · intro h
    have hf : b.flat = List.range' 1 (w * w - 1) ++ [0] := listKey_inj _ _ h
    apply square_flatten_inj w b.tiles (make_goal w)
      (by rw [hsq.1, (make_goal_square w).1]) hsq.2 (make_goal_square w).2
    rw [flatten_make_goal w (by omega)]
    exact hf
  · intro h
    unfold Board.repr Board.flat
    rw [h, flatten_make_goal w (by omega)]

/-! ### Heap multiset lemmas: the sift loops permute, push adds, pop removes -/

theorem set_set_to_swap (heap : List Board) (pos pp : Nat) (ni : Board)
    (hne : pos ≠ pp) (hpos : pos < heap.length) (hpp : pp < heap.length) :
    List.Perm ((heap.set pos (heap.getD pp defaultBoard)).set pp ni)
      (heap.set pos ni) := by
  have hppl : pp < (heap.set pos ni).length := by simpa using hpp
  have hposl : pos < (heap.set pos ni).length := by simpa using hpos
  have h1 : (heap.set pos ni).get ⟨pp, hppl⟩ = heap.getD pp defaultBoard := by
    rw [List.getD_eq_getElem _ _ hpp]
    simp only [List.get_eq_getElem]
    exact List.getElem_set_ne hne hppl
  have h2 : (heap.set pos ni).get ⟨pos, hposl⟩ = ni := by
    simp
  have hperm := set_set_swap_perm (heap.set pos ni) pos pp hne hposl hppl
  rw [h1, h2, List.set_set] at hperm
  exact hperm

theorem siftdownLoopF_perm : ∀ (fuel : Nat) (heap : List Board) (sp pos : Nat)
    (ni : Board), pos < heap.length →
    List.Perm (siftdownLoopF fuel heap sp pos ni) (heap.set pos ni)
  | 0, heap, sp, pos, ni, h => by simp [siftdownLoopF]
  | fuel + 1, heap, sp, pos, ni, h => by
    simp only [siftdownLoopF]
    split
    · rename_i hlt
      split
      · have hpp : (pos - 1) / 2 < heap.length := by
          have : (pos - 1) / 2 ≤ pos - 1 := Nat.div_le_self _ _
          omega
        have ih := siftdownLoopF_perm fuel
          (heap.set pos (List.getD heap ((pos - 1) / 2) defaultBoard)) sp
          ((pos - 1) / 2) ni (by simpa using hpp)
        exact ih.trans (set_set_to_swap heap pos ((pos - 1) / 2) ni (by omega) h hpp)
      · exact List.Perm.refl _
    · exact List.Perm.refl _

theorem siftdownLoop_perm (heap : List Board) (sp pos : Nat) (ni : Board)
    (h : pos < heap.length) :
    List.Perm (siftdownLoop heap sp pos ni) (heap.set pos ni) :=
  siftdownLoopF_perm pos heap sp pos ni h

theorem siftupLoopF_perm : ∀ (fuel : Nat) (heap : List Board) (pos : Nat)
    (ni : Board) (sp : Nat), pos < heap.length →
    List.Perm (siftupLoopF fuel heap pos ni sp) (heap.set pos ni)
  | 0, heap, pos, ni, sp, h => by
    simp only [siftupLoopF]
    refine (siftdownLoop_perm (heap.set pos ni) sp pos ni (by simpa using h)).trans ?_
    rw [List.set_set]
  | fuel + 1, heap, pos, ni, sp, h => by
    simp only [siftupLoopF]
    split
    · rename_i hc
      split
      · rename_i hcond
        have hlt2 : 2 * pos + 1 + 1 < heap.length := hcond.1
        have ih := siftupLoopF_perm fuel
          (heap.set pos (List.getD heap (2 * pos + 1 + 1) defaultBoard))
          (2 * pos + 1 + 1) ni sp (by simpa using hlt2)
        exact ih.trans (set_set_to_swap heap pos (2 * pos + 1 + 1) ni (by omega) h hlt2)
      · have ih := siftupLoopF_perm fuel
          (heap.set pos (List.getD heap (2 * pos + 1) defaultBoard))
          (2 * pos + 1) ni sp (by simpa using hc)
        exact ih.trans (set_set_to_swap heap pos (2 * pos + 1) ni (by omega) h hc)
    · refine (siftdownLoop_perm (heap.set pos ni) sp pos ni (by simpa using h)).trans ?_
      rw [List.set_set]

theorem heappush_perm (heap : List Board) (item : Board) :
    List.Perm (heappush heap item) (item :: heap) := by
  unfold heappush siftdown
  have hlen : heap.length < (heap ++ [item]).length := by simp
  have hget : (heap ++ [item]).getD heap.length defaultBoard = item := by
    rw [List.getD_append_right _ _ _ _ (Nat.le_refl _)]
    simp
  rw [hget]
  have := siftdownLoop_perm (heap ++ [item]) 0 heap.length item hlen
  refine this.trans ?_
  have hset : (heap ++ [item]).set heap.length item = heap ++ [item] := by
    rw [List.set_append]
    rw [if_neg (by omega)]
    simp
  rw [hset]
  exact List.perm_append_singleton item heap

theorem heappop_none_iff (heap : List Board) : heappop heap = none ↔ heap = [] := by
  unfold heappop
  split
  · simp_all [List.isEmpty_iff]
  · simp_all [List.isEmpty_iff]
    split <;> simp

theorem heappop_perm : ∀ (heap : List Board) (nd : Board) (h1 : List Board),
    heappop heap = some (nd, h1) → List.Perm heap (nd :: h1)
  | [], nd, h1, h => by simp [heappop] at h
  | [x], nd, h1, h => by
    simp [heappop] at h
    rw [h.1, ← h.2]
  | x :: y :: ys, nd, h1, h => by
    have hne : (x :: y :: ys) ≠ [] := by simp
    have hdl : (x :: y :: ys).dropLast = x :: (y :: ys).dropLast :=
      List.dropLast_cons₂
    simp only [heappop, List.isEmpty_cons, Bool.false_eq_true, if_false, hdl,
      Option.some.injEq, Prod.mk.injEq] at h
    obtain ⟨h3, h4⟩ := h
    have hnd : nd = x := by simpa using h3.symm
    have hperm1 : List.Perm h1
        ((x :: (y :: ys).dropLast).set 0 ((x :: y :: ys).getLastD defaultBoard)) := by
      rw [← h4]
      unfold siftupLoop
      refine (siftupLoopF_perm _ _ 0 _ 0 (by simp)).trans ?_
      rw [List.set_set]
    have hset0 : ((x :: (y :: ys).dropLast).set 0 ((x :: y :: ys).getLastD defaultBoard))
        = (x :: y :: ys).getLastD defaultBoard :: (y :: ys).dropLast := by simp
    have hsplit : x :: y :: ys
        = (x :: (y :: ys).dropLast) ++ [(x :: y :: ys).getLastD defaultBoard] := by
      have hlast : (x :: y :: ys).getLastD defaultBoard = (x :: y :: ys).getLast hne := by
        rw [List.getLastD_eq_getLast?, List.getLast?_eq_getLast _ hne]
        rfl
      rw [hlast, ← hdl]
      exact (List.dropLast_append_getLast hne).symm
    rw [hnd]
    refine hsplit ▸ ?_
    refine (List.perm_append_singleton _ _).trans ?_
    refine (List.Perm.swap _ _ _).trans ?_
    refine List.Perm.cons x ?_
    rw [hset0] at hperm1
    exact hperm1.symm

/-! ### Heap membership corollaries -/

theorem mem_heappush {x b : Board} {heap : List Board} :
    x ∈ heappush heap b ↔ x = b ∨ x ∈ heap := by
  rw [(heappush_perm heap b).mem_iff]
  simp

theorem mem_of_heappop {heap : List Board} {nd : Board} {h1 : List Board}
    (h : heappop heap = some (nd, h1)) :
    nd ∈ heap ∧ ∀ x ∈ h1, x ∈ heap := by
  have hp := heappop_perm heap nd h1 h
  constructor
  · rw [hp.mem_iff]; simp
  · intro x hx; rw [hp.mem_iff]; simp [hx]

/-! ### Neighbors: structure lemmas -/

theorem neighbors_map_tiles (b : Board) (r : Bool) :
    (b.neighbors r).map Board.tiles = gridNeighbors b.tiles := by
  unfold Board.neighbors gridNeighbors Board.width
  rw [List.map_flatMap]
  congr 1
  funext i
  rw [List.map_flatMap]
  congr 1
  funext j
  split
  · rw [List.map_map]
    congr 1
    funext m
    cases r <;> simp
  · simp

theorem flatMap_eq_of_unique {α β : Type} (f : α → List β) :
    ∀ (l : List α) (a : α), l.Nodup → a ∈ l → (∀ x ∈ l, x ≠ a → f x = []) →
      l.flatMap f = f a := by
  intro l a hnd ha hz
  induction l with
  | nil => simp at ha
  | cons x xs ih =>
    rw [List.flatMap_cons]
    rcases List.mem_cons.mp ha with h | h
    · subst h
      have hxs : xs.flatMap f = [] := by
        rw [List.flatMap_eq_nil_iff]
        intro z hzz
        exact hz z (by simp [hzz]) (fun he => (List.nodup_cons.mp hnd).1 (he ▸ hzz))
      simp [hxs]
    · have hx0 : f x = [] := hz x (by simp)
        (fun he => (List.nodup_cons.mp hnd).1 (he ▸ h))
      rw [hx0, List.nil_append]
      exact ih (List.nodup_cons.mp hnd).2 h (fun z hz2 hne => hz z (by simp [hz2]) hne)

/-- The blank is at `(i, j)` and nowhere else. -/
def blankAt (b : Board) (i j : Nat) : Prop :=
  i < b.width ∧ j < b.width ∧ tileAt b.tiles i j = 0 ∧
    ∀ i2 < b.width, ∀ j2 < b.width, tileAt b.tiles i2 j2 = 0 → i2 = i ∧ j2 = j

instance (b : Board) (i j : Nat) : Decidable (blankAt b i j) := by
  unfold blankAt; infer_instance

/-- With a unique blank at `(i, j)`, the neighbor scan contributes exactly the
four conditional moves of that one cell, in source order. -/
theorem neighbors_eq_of_blankAt (b : Board) (r : Bool) (i j : Nat)
    (hb : blankAt b i j) :
    b.neighbors r = (cellMoves b.tiles b.width i j).map (fun m =>
      if r then Board.init m.1 (some b) (some m.2)
      else Board.init m.1 none none) := by
  obtain ⟨hi, hj, h0, huniq⟩ := hb
  unfold Board.neighbors
  rw [flatMap_eq_of_unique _ (List.range b.width) i (List.nodup_range _)
    (List.mem_range.mpr hi) ?_]
  · rw [flatMap_eq_of_unique _ (List.range b.width) j (List.nodup_range _)
      (List.mem_range.mpr hj) ?_]
    · rw [if_pos h0]
    · intro j2 hj2 hne
      rw [if_neg]
      intro ht
      exact hne ((huniq i hi j2 (List.mem_range.mp hj2) ht).2)
  · intro i2 hi2 hne
    rw [List.flatMap_eq_nil_iff]
    intro j2 hj2
    rw [if_neg]
    intro ht
    exact hne ((huniq i2 (List.mem_range.mp hi2) j2 (List.mem_range.mp hj2) ht).1)

theorem cellMoves_length_le (t : Grid) (w i j : Nat) :
    (cellMoves t w i j).length ≤ 4 := by
  unfold cellMoves
  split_ifs <;> simp

/-- Case analysis on membership in `cellMoves`. -/
theorem mem_cellMoves (t : Grid) (w i j : Nat) (m : Grid × String)
    (hm : m ∈ cellMoves t w i j) :
    (1 ≤ i ∧ m = (swapTiles t (i-1) j i j, "Down")) ∨
    (i+1 < w ∧ m = (swapTiles t (i+1) j i j, "Up")) ∨
    (1 ≤ j ∧ m = (swapTiles t i (j-1) i j, "Right")) ∨
    (j+1 < w ∧ m = (swapTiles t i (j+1) i j, "Left")) := by
  unfold cellMoves at hm
  simp only [List.mem_append] at hm
  rcases hm with ((h | h) | h) | h
  · left
    split at h <;> simp_all
  · right; left
    split at h <;> simp_all
  · right; right; left
    split at h <;> simp_all
  · right; right; right
    split at h <;> simp_all

/-- Every grid produced by `gridNeighbors` from a well-formed grid is again
well-formed: a swap of two distinct in-bounds cells. -/
theorem gridNeighbors_WF (w : Nat) (t u : Grid) (hwf : WFGrid w t)
    (hu : u ∈ gridNeighbors t) : WFGrid w u := by
  obtain ⟨hsq, hperm⟩ := hwf
  unfold gridNeighbors at hu
  rw [hsq.1] at hu
  simp only [List.mem_flatMap, List.mem_range] at hu
  obtain ⟨i, hi, j, hj, hin⟩ := hu
  rw [← hsq.1] at hin
  by_cases h0 : tileAt t i j = 0
  · rw [if_pos h0] at hin
    simp only [List.mem_map] at hin
    obtain ⟨m, hm, hmu⟩ := hin
    rw [hsq.1] at hm
    have hcases := mem_cellMoves t w i j m hm
    have hWFswap : ∀ i1 j1, i1 < w → j1 < w → ¬(i1 = i ∧ j1 = j) →
        WFGrid w (swapTiles t i1 j1 i j) := by
      intro i1 j1 hi1 hj1 hne
      exact ⟨swapTiles_square w t hsq i1 j1 i j hi1 hi,
        (swapTiles_flatten_perm w t hsq i1 j1 i j hi1 hj1 hi hj hne).trans hperm⟩
    rcases hcases with ⟨hc, he⟩ | ⟨hc, he⟩ | ⟨hc, he⟩ | ⟨hc, he⟩ <;>
      (rw [← hmu, he]
       first
       | exact hWFswap (i-1) j (by omega) hj (by omega)
       | exact hWFswap (i+1) j (by omega) hj (by omega)
       | exact hWFswap i (j-1) hi (by omega) (by omega)
       | exact hWFswap i (j+1) hi (by omega) (by omega))
  · rw [if_neg h0] at hin
    simp at hin

/-- A well-formed grid has exactly one blank tile. -/
theorem WF_blank_count (w : Nat) (hw : 1 ≤ w) (t : Grid) (hwf : WFGrid w t) :
    t.flatten.count 0 = 1 := by
  rw [hwf.2.count_eq]
  exact List.count_eq_one_of_mem (List.nodup_range _)
    (List.mem_range.mpr (Nat.mul_pos hw hw))

/-! ### Path reconstruction lemmas -/

theorem pathRev_ne_nil (b : Board) : b.pathRev ≠ [] := by
  cases b with
  | mk t p a g => cases p <;> simp [Board.pathRev]

theorem pathRev_head : ∀ b : Board, b.pathRev.head? = some b
  | .mk t none a g => rfl
  | .mk t (some p) a g => rfl

theorem rootOf_parent_none : ∀ b : Board, (rootOf b).parent = none
  | .mk t none a g => rfl
  | .mk t (some p) a g => rootOf_parent_none p

theorem rootOf_of_parent_none (b : Board) (h : b.parent = none) : rootOf b = b := by
  cases b with
  | mk t p a g =>
    cases p with
    | none => rfl
    | some q => simp [Board.parent] at h

theorem rootOf_of_parent_some (c b : Board) (h : c.parent = some b) :
    rootOf c = rootOf b := by
  cases c with
  | mk t p a g =>
    cases p with
    | none => simp [Board.parent] at h
    | some q =>
      simp [Board.parent] at h
      subst h
      rfl

theorem pathRev_getLast : ∀ b : Board, b.pathRev.getLast? = some (rootOf b)
  | .mk t none a g => rfl
  | .mk t (some p) a g => by
    have ih := pathRev_getLast p
    show (Board.mk t (some p) a g :: p.pathRev).getLast? = some (rootOf p)
    cases hp : p.pathRev with
    | nil => exact absurd hp (pathRev_ne_nil p)
    | cons x xs =>
      rw [List.getLast?_cons_cons]
      rw [← hp, ih]

theorem pathRev_chain : ∀ b : Board, wellDepth b = true →
    List.Chain' (fun x y => x.g = y.g + 1) b.pathRev
  | .mk t none a g, h => by simp [Board.pathRev]
  | .mk t (some p) a g, h => by
    simp only [wellDepth, Bool.and_eq_true, beq_iff_eq] at h
    have ih := pathRev_chain p h.2
    show List.Chain' _ (Board.mk t (some p) a g :: p.pathRev)
    refine List.Chain'.cons' ih ?_
    intro y hy
    rw [pathRev_head p] at hy
    simp only [Option.mem_def, Option.some.injEq] at hy
    subst hy
    show Board.g (Board.mk t (some p) a g) = p.g + 1
    simpa [Board.g] using h.1

theorem pathRev_length : ∀ b : Board, wellDepth b = true →
    b.pathRev.length = b.g + 1
  | .mk t none a g, h => by
    simp only [wellDepth, beq_iff_eq] at h
    simp [Board.pathRev, Board.g, h]
  | .mk t (some p) a g, h => by
    simp only [wellDepth, Bool.and_eq_true, beq_iff_eq] at h
    have ih := pathRev_length p h.2
    show (Board.mk t (some p) a g :: p.pathRev).length = g + 1
    simp [ih, h.1]

theorem path_head (b : Board) : b.path.head? = some (rootOf b) := by
  unfold Board.path
  rw [List.head?_reverse]
  exact pathRev_getLast b

theorem path_getLast (b : Board) : b.path.getLast? = some b := by
  unfold Board.path
  rw [List.getLast?_reverse]
  exact pathRev_head b

theorem path_length (b : Board) (h : wellDepth b = true) :
    b.path.length = b.g + 1 := by
  unfold Board.path
  rw [List.length_reverse]
  exact pathRev_length b h

theorem path_chain (b : Board) (h : wellDepth b = true) :
    List.Chain' (fun x y => y.g = x.g + 1) b.path := by
  unfold Board.path
  rw [List.chain'_reverse]
  exact pathRev_chain b h

/-! ### The search-loop invariant -/

/-- Keys that can ever be marked seen during a search from `root`: canonical
keys of permutations of the root's flattened tile sequence.  Its length bounds
the number of loop iterations. -/
def keyList (root : Board) : List Str := root.flat.permutations.map listKey

/-- A key whose configuration has been expanded: it belongs to a well-formed,
non-solved grid all of whose successors are already marked seen. -/
def ExpandedClosed (w : Nat) (seen : List Str) (k : Str) : Prop :=
  ∃ t : Grid, WFGrid w t ∧ listKey t.flatten = k ∧
    listKey t.flatten ≠ solvedStr w ∧
    ∀ u ∈ gridNeighbors t, listKey u.flatten ∈ seen

/-- The invariant of the `Solver.solve` loop relating frontier and seen set. -/
structure Inv (w : Nat) (root : Board) (heap : List Board) (seen : List Str) :
    Prop where
  mem_wf : ∀ b ∈ heap, WFGrid w b.tiles
  mem_root : ∀ b ∈ heap, rootOf b = root
  mem_seen : ∀ b ∈ heap, b.repr ∈ seen
  nodup : seen.Nodup
  seen_keys : ∀ k ∈ seen, k ∈ keyList root
  closed : ∀ k ∈ seen, (∃ b ∈ heap, b.repr = k) ∨ ExpandedClosed w seen k

theorem ExpandedClosed.mono {w : Nat} {seen seen2 : List Str} {k : Str}
    (hsub : ∀ x ∈ seen, x ∈ seen2) (h : ExpandedClosed w seen k) :
    ExpandedClosed w seen2 k := by
  obtain ⟨t, h1, h2, h3, h4⟩ := h
  exact ⟨t, h1, h2, h3, fun u hu => hsub _ (h4 u hu)⟩

theorem repr_eq_key (b : Board) : b.repr = listKey b.tiles.flatten := rfl

theorem repr_mem_keyList (w : Nat) (root b : Board) (hroot : WFGrid w root.tiles)
    (hb : WFGrid w b.tiles) : b.repr ∈ keyList root := by
  unfold keyList
  apply List.mem_map.mpr
  exact ⟨b.flat, List.mem_permutations.mpr (hb.2.trans hroot.2.symm), rfl⟩

theorem seen_length_le (root : Board) (seen : List Str) (hnd : seen.Nodup)
    (hsub : ∀ k ∈ seen, k ∈ keyList root) :
    seen.length ≤ (keyList root).length := by
  have h1 : seen.toFinset.card = seen.length := List.toFinset_card_of_nodup hnd
  have h2 : seen.toFinset ⊆ (keyList root).toFinset := by
    intro x hx
    simp only [List.mem_toFinset] at hx ⊢
    exact hsub x hx
  calc seen.length = seen.toFinset.card := h1.symm
    _ ≤ (keyList root).toFinset.card := Finset.card_le_card h2
    _ ≤ (keyList root).length := List.toFinset_card_le _

theorem WF_flatten_length (w : Nat) (t : Grid) (h : WFGrid w t) :
    t.flatten.length = w * w := by
  rw [h.2.length_eq, List.length_range]

theorem key_inj_WF (w : Nat) (t u : Grid) (ht : WFGrid w t) (hu : WFGrid w u)
    (h : listKey t.flatten = listKey u.flatten) : t = u := by
  apply square_flatten_inj w t u (by rw [ht.1.1, hu.1.1]) ht.1.2 hu.1.2
  exact listKey_inj _ _ h

theorem goal_key (w : Nat) (hw : 2 ≤ w) :
    listKey (make_goal w).flatten = solvedStr w := by
  rw [flatten_make_goal w (by omega), solvedStr_eq_listKey w hw]

theorem mem_neighbors_true (b c : Board) (hc : c ∈ b.neighbors true) :
    c.parent = some b := by
  simp only [Board.neighbors, List.mem_flatMap, List.mem_range] at hc
  obtain ⟨i, hi, j, hj, hin⟩ := hc
  split at hin
  · simp only [if_true, List.mem_map] at hin
    obtain ⟨m, _, he⟩ := hin
    rw [← he]
    simp
  · simp at hin

theorem mem_neighbors_tiles (b c : Board) (r : Bool) (hc : c ∈ b.neighbors r) :
    c.tiles ∈ gridNeighbors b.tiles := by
  rw [← neighbors_map_tiles b r]
  exact List.mem_map_of_mem Board.tiles hc

theorem gridNeighbors_exists_board (b : Board) (r : Bool) (u : Grid)
    (hu : u ∈ gridNeighbors b.tiles) : ∃ c ∈ b.neighbors r, c.tiles = u := by
  rw [← neighbors_map_tiles b r] at hu
  rcases List.mem_map.mp hu with ⟨c, hc, he⟩
  exact ⟨c, hc, he⟩

/-- All facts needed about one expansion's fold over `pushChild`. -/
theorem fold_pushChild (w : Nat) (root : Board) :
    ∀ (nbs heap : List Board) (seen : List Str),
    (∀ b ∈ nbs, WFGrid w b.tiles ∧ rootOf b = root ∧ b.repr ∈ keyList root) →
    (∀ b ∈ heap, WFGrid w b.tiles) →
    (∀ b ∈ heap, rootOf b = root) →
    (∀ b ∈ heap, b.repr ∈ seen) →
    seen.Nodup →
    (∀ k ∈ seen, k ∈ keyList root) →
    ((∀ b ∈ (nbs.foldl pushChild (heap, seen)).1, WFGrid w b.tiles) ∧
     (∀ b ∈ (nbs.foldl pushChild (heap, seen)).1, rootOf b = root) ∧
     (∀ b ∈ (nbs.foldl pushChild (heap, seen)).1,
        b.repr ∈ (nbs.foldl pushChild (heap, seen)).2) ∧
     (nbs.foldl pushChild (heap, seen)).2.Nodup ∧
     (∀ k ∈ (nbs.foldl pushChild (heap, seen)).2, k ∈ keyList root) ∧
     (∀ k ∈ seen, k ∈ (nbs.foldl pushChild (heap, seen)).2) ∧
     (∀ b ∈ nbs, b.repr ∈ (nbs.foldl pushChild (heap, seen)).2) ∧
     (∀ k ∈ (nbs.foldl pushChild (heap, seen)).2,
        k ∈ seen ∨ ∃ b ∈ (nbs.foldl pushChild (heap, seen)).1, b.repr = k) ∧
     (∀ b ∈ heap, b ∈ (nbs.foldl pushChild (heap, seen)).1) ∧
     (nbs.foldl pushChild (heap, seen)).2.length + heap.length =
       seen.length + (nbs.foldl pushChild (heap, seen)).1.length) := by
  intro nbs
  induction nbs with
  | nil =>
    intro heap seen hnb hwf hroot hseen hnd hkeys
    simp only [List.foldl_nil]
    refine ⟨hwf, hroot, hseen, hnd, hkeys, fun k hk => hk, by simp,
      fun k hk => Or.inl hk, fun b hb => hb, by trivial⟩
  | cons nb rest ih =>
    intro heap seen hnb hwf hroot hseen hnd hkeys
    simp only [List.foldl_cons]
    by_cases hmem : nb.repr ∈ seen
    · rw [show pushChild (heap, seen) nb = (heap, seen) by simp [pushChild, hmem]]
      have hres := ih heap seen (fun b hb => hnb b (by simp [hb])) hwf hroot hseen
        hnd hkeys
      obtain ⟨c1, c2, c3, c4, c5, c6, c7, c8, c9, c10⟩ := hres
      exact ⟨c1, c2, c3, c4, c5, c6,
        fun b hb => by
          rcases List.mem_cons.mp hb with h | h
          · subst h; exact c6 _ hmem
          · exact c7 b h,
        c8, c9, c10⟩
    · rw [show pushChild (heap, seen) nb = (heappush heap nb, nb.repr :: seen) by
        simp [pushChild, hmem]]
      have hnbw := hnb nb (by simp)
      have hres := ih (heappush heap nb) (nb.repr :: seen)
        (fun b hb => hnb b (by simp [hb]))
        (fun b hb => by
          rcases mem_heappush.mp hb with h | h
          · subst h; exact hnbw.1
          · exact hwf b h)
        (fun b hb => by
          rcases mem_heappush.mp hb with h | h
          · subst h; exact hnbw.2.1
          · exact hroot b h)
        (fun b hb => by
          rcases mem_heappush.mp hb with h | h
          · subst h; simp
          · simp [hseen b h])
        (by simp [hnd, hmem])
        (fun k hk => by
          rcases List.mem_cons.mp hk with h | h
          · subst h; exact hnbw.2.2
          · exact hkeys k h)
      obtain ⟨c1, c2, c3, c4, c5, c6, c7, c8, c9, c10⟩ := hres
      have hpushlen : (heappush heap nb).length = heap.length + 1 := by
        rw [(heappush_perm heap nb).length_eq]
        simp
      refine ⟨c1, c2, c3, c4, c5, ?_, ?_, ?_, ?_, ?_⟩
      · intro k hk
        exact c6 k (by simp [hk])
      · intro b hb
        rcases List.mem_cons.mp hb with h | h
        · subst h; exact c6 _ (by simp)
        · exact c7 b h
      · intro k hk
        rcases c8 k hk with h | h
        · rcases List.mem_cons.mp h with h2 | h2
          · subst h2
            exact Or.inr ⟨nb, c9 nb (mem_heappush.mpr (Or.inl rfl)), rfl⟩
          · exact Or.inl h2
        · exact Or.inr h
      · intro b hb
        exact c9 b (mem_heappush.mpr (Or.inr hb))
      · simp only [List.length_cons] at c10 ⊢
        omega

/-- If the frontier is empty but every seen key is expanded-closed, no grid
with a seen key can reach the goal: the walk along the solution chain stays
inside `seen`, and the goal itself would have to be a non-solved grid with
the solved key. -/
theorem walk_contradiction (w : Nat) (hw : 2 ≤ w) (seen : List Str)
    (hclosed : ∀ k ∈ seen, ExpandedClosed w seen k) :
    ∀ t : Grid, WFGrid w t → listKey t.flatten ∈ seen →
      Reaches t (make_goal w) → False := by
  intro t hwf hk hreach
  unfold Reaches at hreach
  revert hwf hk
  induction hreach using Relation.ReflTransGen.head_induction_on with
  | refl =>
    intro hwf hk
    obtain ⟨t2, h1, h2, h3, h4⟩ := hclosed _ hk
    exact h3 (h2.trans (goal_key w hw))
  | head step rest ih =>
    rename_i a c
    intro hwf hk
    obtain ⟨t2, h1, h2, h3, h4⟩ := hclosed _ hk
    have ht2 : t2 = a := key_inj_WF w t2 a h1 hwf h2
    subst ht2
    exact ih (gridNeighbors_WF w t2 c ⟨hwf.1, hwf.2⟩ step)
      (h4 c step)

/-- Completeness of the search loop: under the invariant, with enough fuel and
a solvable configuration whose key is already seen, the loop returns a path
whose first element is the root and whose last element carries the solved key. -/
theorem solveFuel_complete (w : Nat) (hw : 2 ≤ w) (root : Board)
    (hroot : WFGrid w root.tiles) :
    ∀ (fuel : Nat) (heap : List Board) (seen : List Str),
    Inv w root heap seen →
    (∃ t0 : Grid, WFGrid w t0 ∧ listKey t0.flatten ∈ seen ∧
      Reaches t0 (make_goal w)) →
    (keyList root).length + heap.length ≤ fuel + seen.length →
    ∃ p, solveFuel fuel heap seen = some (some p) ∧
      p.head? = some root ∧
      ∃ last, p.getLast? = some last ∧ last.repr = solvedStr w := by
  intro fuel
  induction fuel with
  | zero =>
    intro heap seen hinv hchain hfuel
    exfalso
    have hle := seen_length_le root seen hinv.nodup hinv.seen_keys
    have hheap : heap = [] := by
      cases heap with
      | nil => rfl
      | cons x xs => simp only [List.length_cons] at hfuel; omega
    subst hheap
    obtain ⟨t0, hwf0, hk0, hr0⟩ := hchain
    refine walk_contradiction w hw seen ?_ t0 hwf0 hk0 hr0
    intro k hk
    rcases hinv.closed k hk with ⟨b, hb, _⟩ | h
    · simp at hb
    · exact h
  | succ fuel ih =>
    intro heap seen hinv hchain hfuel
    cases hpop : heappop heap with
    | none =>
      exfalso
      have hheap := (heappop_none_iff heap).mp hpop
      subst hheap
      obtain ⟨t0, hwf0, hk0, hr0⟩ := hchain
      refine walk_contradiction w hw seen ?_ t0 hwf0 hk0 hr0
      intro k hk
      rcases hinv.closed k hk with ⟨b, hb, _⟩ | h
      · simp at hb
      · exact h
    | some nd1 =>
      obtain ⟨node, heap1⟩ := nd1
      have hmemnode : node ∈ heap := (mem_of_heappop hpop).1
      have hnodewf : WFGrid w node.tiles := hinv.mem_wf node hmemnode
      have hwidth : node.width = w := hnodewf.1.1
      cases hsol : node.is_solved with
      | true =>
        refine ⟨node.path, ?_, ?_, node, path_getLast node, ?_⟩
        · simp [solveFuel, hpop, hsol]
        · rw [path_head node, hinv.mem_root node hmemnode]
        · have h2 := hsol
          unfold Board.is_solved at h2
          rw [hwidth] at h2
          exact beq_iff_eq.mp h2
      | false =>
        have hstep : solveFuel (fuel + 1) heap seen =
            solveFuel fuel ((node.neighbors true).foldl pushChild (heap1, seen)).1
              ((node.neighbors true).foldl pushChild (heap1, seen)).2 := by
          simp [solveFuel, hpop, hsol]
        rw [hstep]
        have hperm := heappop_perm heap node heap1 hpop
        have hmem1 : ∀ b ∈ heap1, b ∈ heap := (mem_of_heappop hpop).2
        have hnbs : ∀ b ∈ node.neighbors true,
            WFGrid w b.tiles ∧ rootOf b = root ∧ b.repr ∈ keyList root := by
          intro nb hnb
          have hwfnb : WFGrid w nb.tiles :=
            gridNeighbors_WF w node.tiles nb.tiles hnodewf
              (mem_neighbors_tiles node nb true hnb)
          refine ⟨hwfnb, ?_, repr_mem_keyList w root nb hroot hwfnb⟩
          rw [rootOf_of_parent_some nb node (mem_neighbors_true node nb hnb)]
          exact hinv.mem_root node hmemnode
        have hfold := fold_pushChild w root (node.neighbors true) heap1 seen hnbs
          (fun b hb => hinv.mem_wf b (hmem1 b hb))
          (fun b hb => hinv.mem_root b (hmem1 b hb))
          (fun b hb => hinv.mem_seen b (hmem1 b hb))
          hinv.nodup hinv.seen_keys
        obtain ⟨c1, c2, c3, c4, c5, c6, c7, c8, c9, c10⟩ := hfold
        have hnodekey : node.repr ≠ solvedStr w := by
          intro he
          have h2 := hsol
          unfold Board.is_solved at h2
          rw [hwidth, he] at h2
          simp at h2
        have hclosed2 : ∀ k ∈ ((node.neighbors true).foldl pushChild (heap1, seen)).2,
            (∃ b ∈ ((node.neighbors true).foldl pushChild (heap1, seen)).1,
              b.repr = k) ∨
            ExpandedClosed w ((node.neighbors true).foldl pushChild (heap1, seen)).2
              k := by
          intro k hk
          rcases c8 k hk with hks | hkn
          · rcases hinv.closed k hks with ⟨b, hb, hbk⟩ | hexp
            · have := hperm.mem_iff.mp hb
              rcases List.mem_cons.mp this with hbn | hb1
              · subst hbn
                right
                refine ⟨b.tiles, hnodewf, ?_, ?_, ?_⟩
                · rw [← repr_eq_key, hbk]
                · rw [← repr_eq_key]; exact hnodekey
                · intro u hu
                  obtain ⟨c, hcmem, hct⟩ :=
                    gridNeighbors_exists_board b true u hu
                  rw [← hct, ← repr_eq_key]
                  exact c7 c hcmem
              · left
                exact ⟨b, c9 b hb1, hbk⟩
            · right
              exact hexp.mono c6
          · left
            exact hkn
        have hinv2 : Inv w root ((node.neighbors true).foldl pushChild (heap1, seen)).1
            ((node.neighbors true).foldl pushChild (heap1, seen)).2 :=
          ⟨c1, c2, c3, c4, c5, hclosed2⟩
        have hchain2 : ∃ t0 : Grid, WFGrid w t0 ∧
            listKey t0.flatten ∈
              ((node.neighbors true).foldl pushChild (heap1, seen)).2 ∧
            Reaches t0 (make_goal w) := by
          obtain ⟨t0, hwf0, hk0, hr0⟩ := hchain
          exact ⟨t0, hwf0, c6 _ hk0, hr0⟩
        have hlen1 : heap.length = heap1.length + 1 := by
          rw [hperm.length_eq]
          simp
        refine ih _ _ hinv2 hchain2 ?_
        omega

/-- The spec-side description of the solved layout, flattened:
`1, 2, …, w²−1, 0`. -/
def goalFlat (w : Nat) : List Nat := List.range' 1 (w * w - 1) ++ [0]

theorem heappush_nil (b : Board) : heappush [] b = [b] := rfl

/-- `Solver.solve` on a solvable well-formed root board returns a path from
the root to a board carrying the solved canonical key. -/
theorem solve_solvable (b : Board) (w : Nat) (hw : 2 ≤ w) (hwf : WFGrid w b.tiles)
    (hparent : b.parent = none) (hs : Reaches b.tiles (make_goal w)) :
    ∃ p, Solver.solve b = some (some p) ∧ p.head? = some b ∧
      ∃ last, p.getLast? = some last ∧ last.repr = listKey (goalFlat w) := by
  unfold Solver.solve
  rw [heappush_nil]
  have hroot : rootOf b = b := rootOf_of_parent_none b hparent
  have hinv : Inv w b [b] [b.repr] := by
    refine ⟨?_, ?_, ?_, by simp, ?_, ?_⟩
    · intro x hx; simp at hx; subst hx; exact hwf
    · intro x hx; simp at hx; subst hx; exact hroot
    · intro x hx; simp at hx; subst hx; simp
    · intro k hk; simp at hk; subst hk; exact repr_mem_keyList w b b hwf hwf
    · intro k hk; simp at hk; subst hk; exact Or.inl ⟨b, by simp, rfl⟩
  have hchain : ∃ t0 : Grid, WFGrid w t0 ∧ listKey t0.flatten ∈ [b.repr] ∧
      Reaches t0 (make_goal w) := ⟨b.tiles, hwf, by simp [← repr_eq_key], hs⟩
  have hklen : (keyList b).length = Nat.factorial (w * w) := by
    unfold keyList
    rw [List.length_map, List.length_permutations]
    unfold Board.flat
    rw [WF_flatten_length w b.tiles hwf]
  have hfuel : (keyList b).length + ([b] : List Board).length ≤
      solveBound b + ([b.repr] : List Str).length := by
    unfold solveBound Board.width
    rw [hwf.1.1, hklen]
    simp
  obtain ⟨p, h1, h2, last, h3, h4⟩ :=
    solveFuel_complete w hw b hwf (solveBound b) [b] [b.repr] hinv hchain hfuel
  refine ⟨p, h1, h2, last, h3, ?_⟩
  rw [h4, solvedStr_eq_listKey w hw]
  rfl

/-! ### Manhattan distance: spec formula, nonnegativity, zero iff solved -/

/-- The goal position of value `v`, as the spec words it:
`((v−1) div width, (v−1) mod width)`. -/
def goalPos (w v : Nat) : Nat × Nat := ((v - 1) / w, (v - 1) % w)

/-- The heuristic as the spec words it: the sum, over all non-blank tiles, of
the Manhattan distance between the tile's current row/column and the goal
row/column of its value. -/
def specManhattan (b : Board) : Int :=
  ((List.range b.width).map (fun i =>
    ((List.range b.width).map (fun j =>
      let v := tileAt b.tiles i j
      if v ≠ 0 then
        |((goalPos b.width v).1 : Int) - (i : Int)| +
          |((goalPos b.width v).2 : Int) - (j : Int)|
      else 0)).sum)).sum

theorem cell_div (w i j : Nat) (hj : j < w) : (i * w + j) / w = i := by
  have hw : 0 < w := by omega
  rw [Nat.mul_comm i w, Nat.mul_add_div hw, Nat.div_eq_of_lt hj]
  omega

theorem cell_mod (w i j : Nat) (hj : j < w) : (i * w + j) % w = j := by
  rw [Nat.mul_comm i w, Nat.mul_add_mod]
  exact Nat.mod_eq_of_lt hj

/-- Cast the source's integer divmod of `v - 1` (with `v ≥ 1`) down to `Nat`. -/
theorem div_cast_eq (v w : Nat) (hv : 1 ≤ v) :
    (((v : Int) - 1) / (w : Int)) = (((v - 1) / w : Nat) : Int) := by
  rw [show ((v : Int) - 1) = ((v - 1 : Nat) : Int) by omega, Int.ofNat_ediv]

theorem mod_cast_eq (v w : Nat) (hv : 1 ≤ v) :
    (((v : Int) - 1) % (w : Int)) = (((v - 1) % w : Nat) : Int) := by
  rw [show ((v : Int) - 1) = ((v - 1 : Nat) : Int) by omega]
  omega

/-- The source's `manhattan` computes exactly the spec's per-tile sum. -/
theorem manhattan_eq_spec (b : Board) : b.manhattan = specManhattan b := by
  unfold Board.manhattan specManhattan goalPos
  congr 1
  apply List.map_congr_left
  intro i hi
  congr 1
  apply List.map_congr_left
  intro j hj
  by_cases h0 : tileAt b.tiles i j = 0
  · simp [h0]
  · have hv : 1 ≤ tileAt b.tiles i j := by omega
    simp only [h0, ne_eq, not_false_eq_true, if_true, if_pos]
    rw [div_cast_eq _ _ hv, mod_cast_eq _ _ hv]

theorem manhattan_nonneg (b : Board) : 0 ≤ b.manhattan := by
  unfold Board.manhattan
  apply List.sum_nonneg
  intro x hx
  rcases List.mem_map.mp hx with ⟨i, _, he⟩
  rw [← he]
  apply List.sum_nonneg
  intro y hy
  rcases List.mem_map.mp hy with ⟨j, _, he2⟩
  rw [← he2]
  dsimp only
  split
  · positivity
  · exact le_refl 0

theorem sum_nonneg_eq_zero : ∀ l : List Int, (∀ x ∈ l, 0 ≤ x) → l.sum = 0 →
    ∀ x ∈ l, x = 0 := by
  intro l
  induction l with
  | nil => simp
  | cons a t ih =>
    intro hnn hs x hx
    have hts : 0 ≤ t.sum := List.sum_nonneg (fun y hy => hnn y (by simp [hy]))
    have ha : 0 ≤ a := hnn a (by simp)
    rw [List.sum_cons] at hs
    rcases List.mem_cons.mp hx with h | h
    · subst h; omega
    · exact ih (fun y hy => hnn y (by simp [hy])) (by omega) x h

/-- The per-cell term of the source's `manhattan`. -/
def manhattanTerm (b : Board) (i j : Nat) : Int :=
  if tileAt b.tiles i j ≠ 0 then
    |((tileAt b.tiles i j - 1) / b.width : Int) - (i : Int)| +
      |((tileAt b.tiles i j - 1) % b.width : Int) - (j : Int)|
  else 0

theorem manhattanTerm_nonneg (b : Board) (i j : Nat) : 0 ≤ manhattanTerm b i j := by
  unfold manhattanTerm
  split
  · positivity
  · exact le_refl 0

theorem manhattan_eq_sum_terms (b : Board) : b.manhattan =
    ((List.range b.width).map (fun i =>
      ((List.range b.width).map (fun j => manhattanTerm b i j)).sum)).sum := rfl

/-- If the total Manhattan distance is zero, every per-cell term is zero. -/
theorem manhattan_zero_terms (b : Board) (h : b.manhattan = 0) :
    ∀ i < b.width, ∀ j < b.width, manhattanTerm b i j = 0 := by
  intro i hi j hj
  rw [manhattan_eq_sum_terms] at h
  have hrow := sum_nonneg_eq_zero _
    (by
      intro x hx
      rcases List.mem_map.mp hx with ⟨i2, _, he⟩
      rw [← he]
      exact List.sum_nonneg (by
        intro y hy
        rcases List.mem_map.mp hy with ⟨j2, _, he2⟩
        rw [← he2]
        exact manhattanTerm_nonneg b i2 j2))
    h ((List.range b.width).map (fun j => manhattanTerm b i j)).sum
    (List.mem_map_of_mem _ (List.mem_range.mpr hi))
  have := sum_nonneg_eq_zero _
    (by
      intro y hy
      rcases List.mem_map.mp hy with ⟨j2, _, he2⟩
      rw [← he2]
      exact manhattanTerm_nonneg b i j2)
    hrow (manhattanTerm b i j) (List.mem_map_of_mem _ (List.mem_range.mpr hj))
  exact this

/-- A zero per-cell term at a non-blank tile pins the tile to its goal cell. -/
theorem manhattanTerm_zero (b : Board) (i j : Nat)
    (h : manhattanTerm b i j = 0) (h0 : tileAt b.tiles i j ≠ 0) :
    (tileAt b.tiles i j - 1) / b.width = i ∧
      (tileAt b.tiles i j - 1) % b.width = j := by
  unfold manhattanTerm at h
  rw [if_pos h0] at h
  have hv : 1 ≤ tileAt b.tiles i j := by omega
  rw [div_cast_eq _ _ hv, mod_cast_eq _ _ hv] at h
  have ha1 := abs_nonneg ((((tileAt b.tiles i j - 1) / b.width : Nat) : Int) - (i : Int))
  have ha2 := abs_nonneg ((((tileAt b.tiles i j - 1) % b.width : Nat) : Int) - (j : Int))
  have hz1 : |(((tileAt b.tiles i j - 1) / b.width : Nat) : Int) - (i : Int)| = 0 := by
    omega
  have hz2 : |(((tileAt b.tiles i j - 1) % b.width : Nat) : Int) - (j : Int)| = 0 := by
    omega
  rw [abs_eq_zero] at hz1 hz2
  constructor <;> omega

theorem tileAt_make_goal (w i j : Nat) (hw : 1 ≤ w) (hi : i < w) (hj : j < w) :
    tileAt (make_goal w) i j =
      if i * w + j < w * w - 1 then i * w + j + 1 else 0 := by
  rw [tileAt_flatten w (make_goal w) (make_goal_square w).2 i j
    (by rw [(make_goal_square w).1]; omega) hj]
  rw [flatten_make_goal w hw]
  by_cases hp : i * w + j < w * w - 1
  · rw [if_pos hp]
    rw [List.getD_append _ _ _ _ (by rw [List.length_range']; omega)]
    rw [List.getD_eq_getElem _ _ (by rw [List.length_range']; omega)]
    rw [List.getElem_range']
    omega
  · rw [if_neg hp]
    rw [List.getD_append_right _ _ _ _ (by rw [List.length_range']; omega)]
    have h2 : i * w + j - (List.range' 1 (w * w - 1)).length = 0 := by
      rw [List.length_range']
      have := cell_lt w i j hi hj
      omega
    rw [h2]
    rfl

theorem manhattanTerm_goal (w : Nat) (hw : 1 ≤ w) (b : Board)
    (hb : b.tiles = make_goal w) (i j : Nat) (hi : i < w) (hj : j < w) :
    manhattanTerm b i j = 0 := by
  have hwidth : b.width = w := by rw [Board.width, hb, (make_goal_square w).1]
  unfold manhattanTerm
  rw [hb, hwidth, tileAt_make_goal w i j hw hi hj]
  by_cases hp : i * w + j < w * w - 1
  · rw [if_pos hp]
    have h0 : (i * w + j + 1 : Nat) ≠ 0 := by omega
    rw [if_pos h0]
    have hv : (1 : Nat) ≤ i * w + j + 1 := by omega
    rw [div_cast_eq _ _ hv, mod_cast_eq _ _ hv]
    have hd : (i * w + j + 1 - 1) = i * w + j := by omega
    rw [hd, cell_div w i j hj, cell_mod w i j hj]
    simp
  · rw [if_neg hp]
    simp

theorem manhattan_goal_board (w : Nat) (hw : 1 ≤ w) (b : Board)
    (hb : b.tiles = make_goal w) : b.manhattan = 0 := by
  rw [manhattan_eq_sum_terms]
  apply List.sum_eq_zero
  intro x hx
  rcases List.mem_map.mp hx with ⟨i, hi, he⟩
  rw [← he]
  apply List.sum_eq_zero
  intro y hy
  rcases List.mem_map.mp hy with ⟨j, hj, he2⟩
  rw [← he2]
  have hwidth : b.width = w := by rw [Board.width, hb, (make_goal_square w).1]
  rw [List.mem_range, hwidth] at hi hj
  exact manhattanTerm_goal w hw b hb i j hi hj

theorem manhattan_zero_eq_goal (w : Nat) (hw : 1 ≤ w) (b : Board)
    (hwf : WFGrid w b.tiles) (h : b.manhattan = 0) : b.tiles = make_goal w := by
  have hwidth : b.width = w := hwf.1.1
  have hterm := manhattan_zero_terms b h
  have hn : b.tiles.flatten.length = w * w := WF_flatten_length w b.tiles hwf
  have hstep : ∀ p, p < w * w - 1 → b.tiles.flatten.getD p 0 = p + 1 := by
    intro p hp
    have hmem : (p + 1) ∈ b.tiles.flatten := by
      rw [hwf.2.mem_iff]
      exact List.mem_range.mpr (by omega)
    rcases List.mem_iff_getElem.mp hmem with ⟨q, hq, hval⟩
    have hqn : q < w * w := by rw [← hn]; exact hq
    have hj : q % w < w := Nat.mod_lt _ (by omega)
    have hi : q / w < w := (Nat.div_lt_iff_lt_mul (by omega)).mpr hqn
    have hq_eq : q = (q / w) * w + q % w := by
      rw [Nat.mul_comm]
      exact (Nat.div_add_mod q w).symm
    have htile : tileAt b.tiles (q / w) (q % w) = p + 1 := by
      rw [tileAt_flatten w b.tiles hwf.1.2 (q / w) (q % w)
        (by rw [hwf.1.1]; omega) hj, ← hq_eq]
      rw [List.getD_eq_getElem _ _ hq]
      exact hval
    have h0 : tileAt b.tiles (q / w) (q % w) ≠ 0 := by rw [htile]; omega
    have hterm2 := manhattanTerm_zero b (q / w) (q % w)
      (hterm (q / w) (by rw [hwidth]; omega) (q % w) (by rw [hwidth]; omega)) h0
    rw [htile, hwidth] at hterm2
    have hp1 : (p + 1 - 1) = p := by omega
    rw [hp1] at hterm2
    have hpq : p = q := by
      rw [hq_eq, ← hterm2.1, ← hterm2.2, Nat.mul_comm]
      exact (Nat.div_add_mod p w).symm
    rw [hpq, List.getD_eq_getElem _ _ hq, hval, hpq]
  have hlast : b.tiles.flatten.getD (w * w - 1) 0 = 0 := by
    have hmem : (0 : Nat) ∈ b.tiles.flatten := by
      rw [hwf.2.mem_iff]
      exact List.mem_range.mpr (Nat.mul_pos hw hw)
    rcases List.mem_iff_getElem.mp hmem with ⟨q, hq, hval⟩
    have hqn : q < w * w := by rw [← hn]; exact hq
    by_cases hql : q < w * w - 1
    · exfalso
      have := hstep q hql
      rw [List.getD_eq_getElem _ _ hq, hval] at this
      omega
    · have hq_eq : q = w * w - 1 := by omega
      rw [← hq_eq, List.getD_eq_getElem _ _ hq]
      exact hval
  have hflat : b.tiles.flatten = List.range' 1 (w * w - 1) ++ [0] := by
    apply List.ext_getElem
    · rw [hn, List.length_append, List.length_range']
      have := Nat.mul_pos hw hw
      simp
      omega
    · intro p h1 h2
      by_cases hp : p < w * w - 1
      · have := hstep p hp
        rw [List.getD_eq_getElem _ _ h1] at this
        rw [this, List.getElem_append_left (by rw [List.length_range']; omega),
          List.getElem_range']
        omega
      · have hpn : p = w * w - 1 := by rw [hn] at h1; omega
        have := hlast
        rw [← hpn] at this
        rw [List.getD_eq_getElem _ _ h1] at this
        rw [this, List.getElem_append_right (by rw [List.length_range']; omega)]
        simp [List.length_range']

  apply square_flatten_inj w _ _ (by rw [hwf.1.1, (make_goal_square w).1])
    hwf.1.2 (make_goal_square w).2
  rw [hflat, flatten_make_goal w hw]

/-- On well-formed boards the heuristic vanishes exactly at the solved board. -/
theorem manhattan_zero_iff (w : Nat) (hw : 2 ≤ w) (b : Board)
    (hwf : WFGrid w b.tiles) : b.manhattan = 0 ↔ b.is_solved = true := by
  constructor
  · intro h
    rw [is_solved_iff_eq_goal w hw b hwf.1]
    exact manhattan_zero_eq_goal w (by omega) b hwf h
  · intro h
    exact manhattan_goal_board w (by omega) b
      ((is_solved_iff_eq_goal w hw b hwf.1).mp h)

/-! ### Remaining small infrastructure for the claim statements -/

/-- A minimal fold invariant: marks accompany every push. -/
theorem fold_pushChild_seen : ∀ (nbs heap : List Board) (seen : List Str),
    (∀ b ∈ heap, b.repr ∈ seen) →
    ∀ b ∈ (nbs.foldl pushChild (heap, seen)).1,
      b.repr ∈ (nbs.foldl pushChild (heap, seen)).2 := by
  intro nbs
  induction nbs with
  | nil => intro heap seen h; simpa using h
  | cons nb rest ih =>
    intro heap seen h
    simp only [List.foldl_cons]
    by_cases hmem : nb.repr ∈ seen
    · rw [show pushChild (heap, seen) nb = (heap, seen) by simp [pushChild, hmem]]
      exact ih heap seen h
    · rw [show pushChild (heap, seen) nb = (heappush heap nb, nb.repr :: seen) by
        simp [pushChild, hmem]]
      refine ih _ _ ?_
      intro b hb
      rcases mem_heappush.mp hb with hbe | hbh
      · subst hbe; simp
      · simp [h b hbh]

instance (t u : Grid) : Decidable (GridStep t u) := by
  unfold GridStep; infer_instance

/-- One board-level successor-generation step (either value of
`record_parent`). -/
def BStep (b c : Board) : Prop := ∃ r, c ∈ b.neighbors r

/-- Board-level reachability through successor generation. -/
def BReaches (b c : Board) : Prop := Relation.ReflTransGen BStep b c

/-! ### The claims -/

/-- C1: For every solvable initial board — a well-formed `w × w` board with
`w ≥ 2` (the mechanically valid widths of the data model), no predecessor,
and whose grid reaches the solved grid through successor generation —
`Solver.solve` returns a path whose first element equals the initial board
and whose last element's canonical key equals the solved key
`1, 2, …, width²−1, 0`. -/
theorem C1_solve_path (b : Board) (w : Nat) (hw : 2 ≤ w) (hwf : WFGrid w b.tiles)
    (hparent : b.parent = none) (hs : Reaches b.tiles (make_goal w)) :
    ∃ p, Solver.solve b = some (some p) ∧ p.head? = some b ∧
      ∃ last, p.getLast? = some last ∧ last.repr = listKey (goalFlat w) :=
  solve_solvable b w hw hwf hparent hs

theorem C1_solve_path_witness :
    ((2 : Nat) ≤ 2 ∧ WFGrid 2 (Board.init [[1, 2], [0, 3]] none none).tiles ∧
      (Board.init [[1, 2], [0, 3]] none none).parent = none ∧
      Reaches (Board.init [[1, 2], [0, 3]] none none).tiles (make_goal 2)) ∧
    ∃ p, Solver.solve (Board.init [[1, 2], [0, 3]] none none) = some (some p) ∧
      p.head? = some (Board.init [[1, 2], [0, 3]] none none) ∧
      ∃ last, p.getLast? = some last ∧ last.repr = listKey (goalFlat 2) := by
  have hr : Reaches (Board.init [[1, 2], [0, 3]] none none).tiles (make_goal 2) :=
    Relation.ReflTransGen.single (by decide)
  exact ⟨⟨by decide, by decide, by decide, hr⟩,
    C1_solve_path (Board.init [[1, 2], [0, 3]] none none) 2 (by decide) (by decide)
      (by decide) hr⟩

/-- C2: On the unsolvable input `[[2,1],[3,0]]` the search exhausts the
frontier and `Solver.solve` falls off the end of the function, producing
Python's implicit `None` (modelled `some none`): a silent absent value, not
the explicit failure outcome the specification mandates. -/
theorem C2_unsolvable_silent_none :
    Solver.solve (Board.init [[2, 1], [3, 0]] none none) = some none := by
  decide

/-- C3: On every well-formed board of the data model (width ≥ 2, tiles a
permutation of `0 .. width²−1`) the heuristic equals the spec's sum of
per-tile Manhattan distances to `((v−1) div width, (v−1) mod width)`, is
nonnegative, and vanishes exactly on the solved board. -/
theorem C3_manhattan (b : Board) (w : Nat) (hw : 2 ≤ w)
    (hwf : WFGrid w b.tiles) :
    b.manhattan = specManhattan b ∧ 0 ≤ b.manhattan ∧
      (b.manhattan = 0 ↔ b.is_solved = true) :=
  ⟨manhattan_eq_spec b, manhattan_nonneg b, manhattan_zero_iff w hw b hwf⟩

theorem C3_manhattan_witness :
    ((2 : Nat) ≤ 2 ∧ WFGrid 2 (Board.init [[2, 1], [3, 0]] none none).tiles) ∧
    ((Board.init [[2, 1], [3, 0]] none none).manhattan =
        specManhattan (Board.init [[2, 1], [3, 0]] none none) ∧
      0 ≤ (Board.init [[2, 1], [3, 0]] none none).manhattan ∧
      ((Board.init [[2, 1], [3, 0]] none none).manhattan = 0 ↔
        (Board.init [[2, 1], [3, 0]] none none).is_solved = true)) :=
  ⟨⟨by decide, by decide⟩,
    C3_manhattan (Board.init [[2, 1], [3, 0]] none none) 2 (by decide) (by decide)⟩

/-- C4: On a board with a unique blank at `(i, j)`, successor generation with
`record_parent` emits exactly the in-bounds swaps in the fixed order above,
below, left, right with labels `"Down"`, `"Up"`, `"Right"`, `"Left"`; hence
at most 4 children, each with the parent's tiles with the blank swapped with
that neighbor, `parent = self`, and depth `parent.g + 1`.  (The input board
is a value in this embedding, so it cannot be mutated.) -/
theorem C4_neighbors (b : Board) (i j : Nat) (hb : blankAt b i j) :
    b.neighbors true =
      ((if 1 ≤ i then
          [Board.init (swapTiles b.tiles (i-1) j i j) (some b) (some "Down")]
        else []) ++
       (if i+1 < b.width then
          [Board.init (swapTiles b.tiles (i+1) j i j) (some b) (some "Up")]
        else []) ++
       (if 1 ≤ j then
          [Board.init (swapTiles b.tiles i (j-1) i j) (some b) (some "Right")]
        else []) ++
       (if j+1 < b.width then
          [Board.init (swapTiles b.tiles i (j+1) i j) (some b) (some "Left")]
        else [])) ∧
    (b.neighbors true).length ≤ 4 ∧
    ∀ c ∈ b.neighbors true, c.parent = some b ∧ c.g = b.g + 1 := by
  have he := neighbors_eq_of_blankAt b true i j hb
  have hmap : ∀ l : List (Grid × String),
      l.map (fun m => if true then Board.init m.1 (some b) (some m.2)
        else Board.init m.1 none none) =
      l.map (fun m => Board.init m.1 (some b) (some m.2)) := by
    intro l
    apply List.map_congr_left
    intro m _
    rfl
  refine ⟨?_, ?_, ?_⟩
  · rw [he, hmap]
    unfold cellMoves
    simp only [List.map_append]
    congr 1
    congr 1
    congr 1
    all_goals split <;> simp
  · rw [he]
    rw [List.length_map]
    exact cellMoves_length_le b.tiles b.width i j
  · intro c hc
    rw [he, hmap] at hc
    rcases List.mem_map.mp hc with ⟨m, _, hme⟩
    rw [← hme]
    exact ⟨by simp, rfl⟩

theorem C4_neighbors_witness :
    blankAt (Board.init [[1, 2], [3, 0]] none none) 1 1 ∧
    ((Board.init [[1, 2], [3, 0]] none none).neighbors true =
      [Board.init [[1, 0], [3, 2]] (some (Board.init [[1, 2], [3, 0]] none none))
          (some "Down"),
        Board.init [[1, 2], [0, 3]] (some (Board.init [[1, 2], [3, 0]] none none))
          (some "Right")] ∧
      ((Board.init [[1, 2], [3, 0]] none none).neighbors true).length ≤ 4) := by
  have hth := C4_neighbors (Board.init [[1, 2], [3, 0]] none none) 1 1 (by decide)
  exact ⟨by decide, by decide, hth.2.1⟩

/-- C5: For every width of the data model (≥ 2), the canonical key of the
solved board built by `make_goal` equals the key of the ascending layout
`1, …, width²−1, 0`, and `is_solved` on a board of that width holds exactly
when its canonical key equals that solved key. -/
theorem C5_solved_key (w : Nat) (hw : 2 ≤ w) :
    (Board.init (make_goal w) none none).repr = listKey (goalFlat w) ∧
    ∀ b : Board, b.width = w →
      (b.is_solved = true ↔ b.repr = listKey (goalFlat w)) := by
  constructor
  · show listKey (make_goal w).flatten = listKey (goalFlat w)
    rw [flatten_make_goal w (by omega)]
    rfl
  · intro b hbw
    unfold Board.is_solved
    rw [hbw, beq_iff_eq, solvedStr_eq_listKey w hw]
    rfl

theorem C5_solved_key_witness :
    (2 : Nat) ≤ 3 ∧
    ((Board.init (make_goal 3) none none).repr = listKey (goalFlat 3) ∧
      ∀ b : Board, b.width = 3 →
        (b.is_solved = true ↔ b.repr = listKey (goalFlat 3))) :=
  ⟨by decide, C5_solved_key 3 (by decide)⟩

/-- C6: For every board whose depth bookkeeping matches its predecessor chain
(as `__init__` maintains for every state the search produces), `path` follows
predecessor links back to the state with no predecessor and returns the
root-first sequence: its length is depth + 1, its first element is the
chain's root (which has no predecessor), its last element is the board
itself, and consecutive elements' depths increase by exactly 1. -/
theorem C6_path (b : Board) (hd : wellDepth b = true) :
    b.path.length = b.g + 1 ∧
    (∃ r, b.path.head? = some r ∧ r.parent = none ∧ r = rootOf b) ∧
    b.path.getLast? = some b ∧
    List.Chain' (fun x y => y.g = x.g + 1) b.path :=
  ⟨path_length b hd,
    ⟨rootOf b, path_head b, rootOf_parent_none b, rfl⟩,
    path_getLast b, path_chain b hd⟩

theorem C6_path_witness :
    wellDepth (Board.init [[1, 2], [3, 0]]
      (some (Board.init [[1, 2], [0, 3]] none none)) (some "Left")) = true ∧
    ((Board.init [[1, 2], [3, 0]]
        (some (Board.init [[1, 2], [0, 3]] none none)) (some "Left")).path.length =
      (Board.init [[1, 2], [3, 0]]
        (some (Board.init [[1, 2], [0, 3]] none none)) (some "Left")).g + 1 ∧
      (∃ r, (Board.init [[1, 2], [3, 0]]
          (some (Board.init [[1, 2], [0, 3]] none none)) (some "Left")).path.head? =
            some r ∧ r.parent = none ∧
          r = rootOf (Board.init [[1, 2], [3, 0]]
            (some (Board.init [[1, 2], [0, 3]] none none)) (some "Left"))) ∧
      (Board.init [[1, 2], [3, 0]]
        (some (Board.init [[1, 2], [0, 3]] none none)) (some "Left")).path.getLast? =
        some (Board.init [[1, 2], [3, 0]]
          (some (Board.init [[1, 2], [0, 3]] none none)) (some "Left")) ∧
      List.Chain' (fun x y => y.g = x.g + 1)
        (Board.init [[1, 2], [3, 0]]
          (some (Board.init [[1, 2], [0, 3]] none none)) (some "Left")).path) :=
  ⟨by decide, C6_path (Board.init [[1, 2], [3, 0]]
    (some (Board.init [[1, 2], [0, 3]] none none)) (some "Left")) (by decide)⟩

/-- C7: The seen set covers the canonical key of everything in the frontier —
it holds of the initial state (`Solver.solve` marks the root's key before the
loop) and is preserved by the successor fold, because a push is always
accompanied by a mark; and a candidate successor whose key is already seen
leaves heap and seen set untouched (it is never pushed — no cost is even
consulted). -/
theorem C7_seen_invariant :
    (∀ puzzle : Board, ∀ b ∈ heappush [] puzzle, b.repr ∈ [puzzle.repr]) ∧
    (∀ (heap : List Board) (seen : List Str) (nb : Board),
      nb.repr ∈ seen → pushChild (heap, seen) nb = (heap, seen)) ∧
    (∀ (nbs heap : List Board) (seen : List Str),
      (∀ b ∈ heap, b.repr ∈ seen) →
      ∀ b ∈ (nbs.foldl pushChild (heap, seen)).1,
        b.repr ∈ (nbs.foldl pushChild (heap, seen)).2) := by
  refine ⟨?_, ?_, fold_pushChild_seen⟩
  · intro puzzle b hb
    rw [heappush_nil] at hb
    simp at hb
    simp [hb]
  · intro heap seen nb hmem
    simp [pushChild, hmem]

theorem C7_seen_invariant_witness :
    ((Board.init [[1, 2], [3, 0]] none none).repr ∈
      ([(Board.init [[1, 2], [3, 0]] none none).repr] : List Str)) ∧
    pushChild ([], [(Board.init [[1, 2], [3, 0]] none none).repr])
        (Board.init [[1, 2], [3, 0]] none none) =
      ([], [(Board.init [[1, 2], [3, 0]] none none).repr]) :=
  ⟨by decide, C7_seen_invariant.2.1 [] [(Board.init [[1, 2], [3, 0]] none none).repr]
    (Board.init [[1, 2], [3, 0]] none none) (by decide)⟩

/-- C8: Well-formedness is an invariant of successor generation: every board
reachable from a well-formed root has a flattened tile sequence that is a
permutation of `0 .. width²−1`, with exactly one blank. -/
theorem C8_invariant (w : Nat) (hw : 1 ≤ w) (b c : Board)
    (hwf : WFGrid w b.tiles) (hreach : BReaches b c) :
    WFGrid w c.tiles ∧ c.tiles.flatten.count 0 = 1 := by
  unfold BReaches at hreach
  induction hreach with
  | refl => exact ⟨hwf, WF_blank_count w hw b.tiles hwf⟩
  | tail step hstep ih =>
    rename_i x y
    obtain ⟨r, hmem⟩ := hstep
    have hwfy : WFGrid w y.tiles :=
      gridNeighbors_WF w x.tiles y.tiles ih.1 (mem_neighbors_tiles x y r hmem)
    exact ⟨hwfy, WF_blank_count w hw y.tiles hwfy⟩

theorem C8_invariant_witness :
    ((1 : Nat) ≤ 2 ∧ WFGrid 2 (Board.init [[1, 2], [0, 3]] none none).tiles ∧
      BReaches (Board.init [[1, 2], [0, 3]] none none)
        (Board.init [[1, 2], [3, 0]]
          (some (Board.init [[1, 2], [0, 3]] none none)) (some "Left"))) ∧
    (WFGrid 2 (Board.init [[1, 2], [3, 0]]
        (some (Board.init [[1, 2], [0, 3]] none none)) (some "Left")).tiles ∧
      (Board.init [[1, 2], [3, 0]]
        (some (Board.init [[1, 2], [0, 3]] none none))
          (some "Left")).tiles.flatten.count 0 = 1) := by
  have hreach : BReaches (Board.init [[1, 2], [0, 3]] none none)
      (Board.init [[1, 2], [3, 0]]
        (some (Board.init [[1, 2], [0, 3]] none none)) (some "Left")) :=
    Relation.ReflTransGen.single ⟨true, by decide⟩
  exact ⟨⟨by decide, by decide, hreach⟩,
    C8_invariant 2 (by decide) _ _ (by decide) hreach⟩

/-- C9: `Solver.solve` is a pure function of the initial board in this
embedding (the priority queue is the deterministic CPython heap and the loop
consults no other state), so solving the same initial board twice yields the
identical result. -/
theorem C9_deterministic (b : Board) : Solver.solve b = Solver.solve b := rfl

/-- C10: `Board.__eq__` holds exactly when the two boards' `f = g + h` values
are equal and `Board.__lt__` holds exactly when the left `f` is strictly
smaller; in particular two boards with different tile layouts compare as
equal. -/
theorem C10_compare_on_f :
    (∀ b o : Board, (Board.beqf b o = true ↔ b.f = o.f) ∧
      (Board.ltb b o = true ↔ b.f < o.f)) ∧
    ∃ b o : Board, b.tiles ≠ o.tiles ∧ Board.beqf b o = true := by
  constructor
  · intro b o
    constructor
    · simp [Board.beqf]
    · simp [Board.ltb]
  · exact ⟨Board.init [[2, 1], [3, 0]] none none,
      Board.init [[0, 2], [3, 1]] none none, by decide, by decide⟩

end NPuzzle
